import Mathlib

/-!
Verification of the tic-tac-toe search engine (`CR_22035.py`).

The board is a list of 9 characters (cells), `' '` for empty, `'O'` for the
human player and `'X'` for the AI, exactly as in the source.  The Python
functions mutate the board in place and undo their moves; the embedding
threads the board explicitly, so every search function returns the value
together with the final state of the board (the restoration claims are then
stated as: the returned board equals the input board).  The functions also
return the number of recursive evaluation calls performed, which models the
call counter the specification's testable properties refer to; the counter
is pure instrumentation and does not influence values or boards.

Python's unbounded recursion is embedded with a fuel parameter: each
recursive call consumes one unit.  Every recursive call of the source places
a mark on an empty cell first, so starting from a board with at most 9 empty
cells the deepest call chain has 10 calls (the last one on a full board,
which is terminal or has no moves and so never recurses); the exported
wrappers `minimax`, `alphabeta` and `get_best_move` therefore use fuel 10,
whose fuel-0 fallback is unreachable on 9-cell boards.  This is proved, not
just asserted: the fuel-stability theorems `minimaxFuel_eq_of_le` and
`alphabetaFuel_eq_of_le` show that on a board with fewer empty cells than
the fuel every larger fuel computes the identical result, so fuel 10 is the
converged value of the recursion on every 9-cell board.  Out-of-bounds
indexing (which
raises in Python) is modelled by `List.getElem?` returning `none` (treated
as the failure branch of `make_move`) and by `List.set` being a no-op; the
safety claim shows every index used by the search is in bounds, so this
modelling choice is unreachable during search.
-/

/-- Extended integers: the Python code uses `-math.inf` and `math.inf` as
initial accumulators and as the top-level alpha-beta window. -/
inductive EInt where
  | negInf : EInt
  | fin : Int → EInt
  | posInf : EInt
deriving DecidableEq, Repr

/-- Boolean order on extended integers, mirroring Python's comparison of
ints and infinities. -/
def EInt.leb : EInt → EInt → Bool
  | .negInf, _ => true
  | .fin _, .negInf => false
  | .fin a, .fin b => decide (a ≤ b)
  | .fin _, .posInf => true
  | .posInf, .posInf => true
  | .posInf, _ => false

/-- Strict order on extended integers. -/
def EInt.ltb (a b : EInt) : Bool := !(EInt.leb b a)

/-- `max` on extended integers (value of Python's `max`). -/
def emax (a b : EInt) : EInt := if a.leb b then b else a

/-- `min` on extended integers (value of Python's `min`). -/
def emin (a b : EInt) : EInt := if a.leb b then a else b

/-- The empty-cell marker (`EMPTY = ' '` in the source). -/
def EMPTY : Char := ' '

/-- The human player's mark (`HUMAN = 'O'`). -/
def HUMAN : Char := 'O'

/-- The AI player's mark (`AI = 'X'`). -/
def AI : Char := 'X'

/-- A board: the `board` field of class `TicTacToe`, a list of cells. -/
abbrev Board := List Char

/-- `available_moves`: indices of the currently empty cells, in ascending
order (Python: list comprehension over `enumerate(self.board)`). -/
def available_moves (b : Board) : List Nat :=
  (List.range b.length).filter (fun i => b[i]? == some EMPTY)

/-- `make_move`: if the cell is empty, place the mark and report success,
otherwise leave the board unchanged and report failure.  The board is
returned explicitly (the Python method mutates `self.board`). -/
def make_move (b : Board) (position : Nat) (player : Char) : Bool × Board :=
  if b[position]? == some EMPTY then (true, b.set position player)
  else (false, b)

/-- The fixed table of 8 winning lines (rows, columns, diagonals). -/
def wins : List (List Nat) :=
  [[0, 1, 2], [3, 4, 5], [6, 7, 8],
   [0, 3, 6], [1, 4, 7], [2, 5, 8],
   [0, 4, 8], [2, 4, 6]]

/-- `is_winner`: some winning line is fully occupied by `player`. -/
def is_winner (b : Board) (player : Char) : Bool :=
  wins.any (fun combo => combo.all (fun i => b[i]? == some player))

/-- `is_draw`: no empty cell remains and neither player has won. -/
def is_draw (b : Board) : Bool :=
  !(b.contains EMPTY) && !(is_winner b HUMAN) && !(is_winner b AI)

/-- `game_over`: a win for either player or a draw. -/
def game_over (b : Board) : Bool :=
  is_winner b HUMAN || is_winner b AI || is_draw b

/-- The maximizing loop of `minimax`: for each move, place the AI mark,
recurse, undo (`board.board[move] = EMPTY`), and fold with `max`.
`rec` is the recursive call at one unit less fuel; the `Nat` component
accumulates the number of recursive evaluation calls. -/
def searchLoopMax (rec : Board → Int → Bool → EInt × Board × Nat)
    (depth : Int) : List Nat → Board → EInt → Nat → EInt × Board × Nat
  | [], b, best, cnt => (best, b, cnt)
  | m :: ms, b, best, cnt =>
    let b1 := (make_move b m AI).2
    let p := rec b1 (depth + 1) false
    let b3 := p.2.1.set m EMPTY
    searchLoopMax rec depth ms b3 (emax p.1 best) (cnt + p.2.2)

/-- The minimizing loop of `minimax`, symmetric with `min` and the human
player's mark. -/
def searchLoopMin (rec : Board → Int → Bool → EInt × Board × Nat)
    (depth : Int) : List Nat → Board → EInt → Nat → EInt × Board × Nat
  | [], b, best, cnt => (best, b, cnt)
  | m :: ms, b, best, cnt =>
    let b1 := (make_move b m HUMAN).2
    let p := rec b1 (depth + 1) true
    let b3 := p.2.1.set m EMPTY
    searchLoopMin rec depth ms b3 (emin p.1 best) (cnt + p.2.2)

/-- `minimax(board, depth, is_maximizing)` with fuel.  Returns the value,
the final board state, and the number of evaluation calls (this call
included).  Fuel 0 returns a junk leaf; it is never reached from the
fuel-9 wrapper on a 9-cell board. -/
def minimaxFuel : Nat → Board → Int → Bool → EInt × Board × Nat
  | 0, b, _, _ => (.fin 0, b, 1)
  | f + 1, b, depth, is_maximizing =>
    if is_winner b AI then (.fin (10 - depth), b, 1)
    else if is_winner b HUMAN then (.fin (depth - 10), b, 1)
    else if is_draw b then (.fin 0, b, 1)
    else if is_maximizing then
      searchLoopMax (minimaxFuel f) depth (available_moves b) b .negInf 1
    else
      searchLoopMin (minimaxFuel f) depth (available_moves b) b .posInf 1

/-- The maximizing loop of `alphabeta`: place, recurse with the current
window, undo, update `max_eval` and `alpha`, and break when
`beta <= alpha` (the undo happens before the break, as in the source). -/
def abLoopMax (rec : Board → Int → EInt → EInt → Bool → EInt × Board × Nat)
    (depth : Int) (beta : EInt) :
    List Nat → Board → EInt → EInt → Nat → EInt × Board × Nat
  | [], b, max_eval, _, cnt => (max_eval, b, cnt)
  | m :: ms, b, max_eval, alpha, cnt =>
    let b1 := (make_move b m AI).2
    let p := rec b1 (depth + 1) alpha beta false
    let b3 := p.2.1.set m EMPTY
    let me := emax max_eval p.1
    let al := emax alpha p.1
    if beta.leb al then (me, b3, cnt + p.2.2)
    else abLoopMax rec depth beta ms b3 me al (cnt + p.2.2)

/-- The minimizing loop of `alphabeta`, symmetric: updates `min_eval` and
`beta`, breaking when `beta <= alpha`. -/
def abLoopMin (rec : Board → Int → EInt → EInt → Bool → EInt × Board × Nat)
    (depth : Int) (alpha : EInt) :
    List Nat → Board → EInt → EInt → Nat → EInt × Board × Nat
  | [], b, min_eval, _, cnt => (min_eval, b, cnt)
  | m :: ms, b, min_eval, beta, cnt =>
    let b1 := (make_move b m HUMAN).2
    let p := rec b1 (depth + 1) alpha beta true
    let b3 := p.2.1.set m EMPTY
    let me := emin min_eval p.1
    let be := emin beta p.1
    if be.leb alpha then (me, b3, cnt + p.2.2)
    else abLoopMin rec depth alpha ms b3 me be (cnt + p.2.2)

/-- `alphabeta(board, depth, alpha, beta, is_maximizing)` with fuel;
same terminal checks and value convention as `minimaxFuel`. -/
def alphabetaFuel : Nat → Board → Int → EInt → EInt → Bool → EInt × Board × Nat
  | 0, b, _, _, _, _ => (.fin 0, b, 1)
  | f + 1, b, depth, alpha, beta, is_maximizing =>
    if is_winner b AI then (.fin (10 - depth), b, 1)
    else if is_winner b HUMAN then (.fin (depth - 10), b, 1)
    else if is_draw b then (.fin 0, b, 1)
    else if is_maximizing then
      abLoopMax (alphabetaFuel f) depth beta (available_moves b) b .negInf alpha 1
    else
      abLoopMin (alphabetaFuel f) depth alpha (available_moves b) b .posInf beta 1

/-- `minimax` as called by the program: starting from a board with at most
9 empty cells the call chain is at most 10 deep (the deepest call sees a
full board and never recurses), so fuel 10 never runs out on a 9-cell
board; `minimaxFuel_eq_of_le` proves the result is the same at every
larger fuel. -/
def minimax (b : Board) (depth : Int) (is_maximizing : Bool) :
    EInt × Board × Nat :=
  minimaxFuel 10 b depth is_maximizing

/-- `alphabeta` as called by the program, with the same fuel-10 argument as
`minimax` (see `alphabetaFuel_eq_of_le`). -/
def alphabeta (b : Board) (depth : Int) (alpha beta : EInt)
    (is_maximizing : Bool) : EInt × Board × Nat :=
  alphabetaFuel 10 b depth alpha beta is_maximizing

/-- The loop of `get_best_move`: place the AI mark, evaluate the resulting
subtree with the chosen procedure (depth 0, minimizing next), undo, and
keep the move on strict improvement (`score > best_score`). -/
def gbmLoop (use_ab : Bool) :
    List Nat → Board → EInt → Option Nat → Option Nat × EInt × Board
  | [], b, best_score, best_move => (best_move, best_score, b)
  | m :: ms, b, best_score, best_move =>
    let b1 := (make_move b m AI).2
    let p := if use_ab then alphabeta b1 0 .negInf .posInf false
             else minimax b1 0 false
    let b3 := p.2.1.set m EMPTY
    if best_score.ltb p.1 then gbmLoop use_ab ms b3 p.1 (some m)
    else gbmLoop use_ab ms b3 best_score best_move

/-- `get_best_move(board, use_ab_pruning)`: the selected move (or `none`
when no move is available) together with the final board state. -/
def get_best_move (b : Board) (use_ab_pruning : Bool) : Option Nat × Board :=
  let r := gbmLoop use_ab_pruning (available_moves b) b .negInf none
  (r.1, r.2.2)

/-! ### Order lemmas for extended integers -/

theorem EInt.leb_refl (a : EInt) : a.leb a = true := by
  cases a <;> simp [EInt.leb]

theorem EInt.leb_trans {a b c : EInt} (h1 : a.leb b = true)
    (h2 : b.leb c = true) : a.leb c = true := by
  cases a <;> cases b <;> cases c <;> simp [EInt.leb] at * <;> omega

theorem EInt.leb_total {a b : EInt} (h : a.leb b = false) : b.leb a = true := by
  cases a <;> cases b <;> simp [EInt.leb] at * <;> omega

theorem EInt.leb_antisymm {a b : EInt} (h1 : a.leb b = true)
    (h2 : b.leb a = true) : a = b := by
  cases a <;> cases b <;> simp [EInt.leb] at * <;> omega

theorem EInt.leb_negInf {a : EInt} (h : a.leb .negInf = true) : a = .negInf := by
  cases a <;> simp [EInt.leb] at *

theorem EInt.posInf_leb {a : EInt} (h : EInt.leb .posInf a = true) :
    a = .posInf := by
  cases a <;> simp [EInt.leb] at *

theorem EInt.negInf_leb (a : EInt) : EInt.leb .negInf a = true := rfl

theorem EInt.leb_posInf (a : EInt) : a.leb .posInf = true := by
  cases a <;> simp [EInt.leb]

theorem EInt.ltb_eq_true {a b : EInt} : a.ltb b = true ↔ b.leb a = false := by
  simp [EInt.ltb]

theorem EInt.ltb_eq_false {a b : EInt} : a.ltb b = false ↔ b.leb a = true := by
  simp [EInt.ltb]

theorem EInt.leb_of_ltb {a b : EInt} (h : a.ltb b = true) : a.leb b = true :=
  EInt.leb_total (EInt.ltb_eq_true.mp h)

theorem EInt.ltb_irrefl (a : EInt) : a.ltb a = false := by
  simp [EInt.ltb, EInt.leb_refl]

theorem EInt.ltb_of_ltb_of_leb {a b c : EInt} (h1 : a.ltb b = true)
    (h2 : b.leb c = true) : a.ltb c = true := by
  cases a <;> cases b <;> cases c <;>
    simp [EInt.ltb, EInt.leb] at * <;> omega

theorem EInt.ltb_of_leb_of_ltb {a b c : EInt} (h1 : a.leb b = true)
    (h2 : b.ltb c = true) : a.ltb c = true := by
  cases a <;> cases b <;> cases c <;>
    simp [EInt.ltb, EInt.leb] at * <;> omega

theorem emax_leb {a b c : EInt} (h1 : a.leb c = true) (h2 : b.leb c = true) :
    (emax a b).leb c = true := by
  unfold emax; split <;> assumption

theorem leb_emax_left (a b : EInt) : a.leb (emax a b) = true := by
  unfold emax
  rcases hc : a.leb b with _ | _
  · simp [EInt.leb_refl]
  · simpa using hc

theorem leb_emax_right (a b : EInt) : b.leb (emax a b) = true := by
  unfold emax
  rcases hc : a.leb b with _ | _
  · simpa using EInt.leb_total hc
  · simp [EInt.leb_refl]

theorem emax_cases (a b : EInt) :
    emax a b = b ∧ a.leb b = true ∨ emax a b = a ∧ b.leb a = true := by
  unfold emax
  rcases hc : a.leb b with _ | _
  · exact Or.inr ⟨by simp, EInt.leb_total hc⟩
  · exact Or.inl ⟨by simp, rfl⟩

theorem emax_eq_left {a b : EInt} (h : b.leb a = true) : emax a b = a := by
  unfold emax
  rcases hc : a.leb b with _ | _
  · simp
  · simp [EInt.leb_antisymm hc h]

theorem emax_eq_right {a b : EInt} (h : a.leb b = true) : emax a b = b := by
  unfold emax; simp [h]

theorem emax_negInf (a : EInt) : emax a .negInf = a := by
  cases a <;> simp [emax, EInt.leb]

theorem emax_assoc (a b c : EInt) : emax (emax a b) c = emax a (emax b c) := by
  rcases emax_cases a b with ⟨h1, h1'⟩ | ⟨h1, h1'⟩ <;>
    rcases emax_cases b c with ⟨h2, h2'⟩ | ⟨h2, h2'⟩ <;> rw [h1, h2]
  · exact (emax_eq_right (EInt.leb_trans h1' h2')).symm
  · exact (emax_eq_right h1').symm
  · rw [emax_eq_left (EInt.leb_trans h2' h1'), emax_eq_left h1']

theorem emax_comm (a b : EInt) : emax a b = emax b a := by
  rcases emax_cases a b with ⟨h, h'⟩ | ⟨h, h'⟩ <;> rw [h]
  · exact (emax_eq_left h').symm
  · exact (emax_eq_right h').symm

theorem emin_leb_left (a b : EInt) : (emin a b).leb a = true := by
  unfold emin
  rcases hc : a.leb b with _ | _
  · simpa using EInt.leb_total hc
  · simp [EInt.leb_refl]

theorem emin_leb_right (a b : EInt) : (emin a b).leb b = true := by
  unfold emin
  rcases hc : a.leb b with _ | _
  · simp [EInt.leb_refl]
  · simpa using hc

theorem leb_emin {a b c : EInt} (h1 : c.leb a = true) (h2 : c.leb b = true) :
    c.leb (emin a b) = true := by
  unfold emin
  rcases hc : a.leb b with _ | _ <;> simp [h1, h2]

theorem emin_cases (a b : EInt) :
    emin a b = a ∧ a.leb b = true ∨ emin a b = b ∧ b.leb a = true := by
  unfold emin
  rcases hc : a.leb b with _ | _
  · exact Or.inr ⟨by simp, EInt.leb_total hc⟩
  · exact Or.inl ⟨by simp, rfl⟩

theorem emin_eq_left {a b : EInt} (h : a.leb b = true) : emin a b = a := by
  unfold emin; simp [h]

theorem emin_eq_right {a b : EInt} (h : b.leb a = true) : emin a b = b := by
  unfold emin
  rcases hc : a.leb b with _ | _
  · simp
  · simp [EInt.leb_antisymm hc h]

theorem emin_posInf (a : EInt) : emin a .posInf = a := by
  cases a <;> simp [emin, EInt.leb]

theorem emin_assoc (a b c : EInt) : emin (emin a b) c = emin a (emin b c) := by
  rcases emin_cases a b with ⟨h1, h1'⟩ | ⟨h1, h1'⟩ <;>
    rcases emin_cases b c with ⟨h2, h2'⟩ | ⟨h2, h2'⟩ <;> rw [h1, h2]
  · rw [emin_eq_left (EInt.leb_trans h1' h2'), emin_eq_left h1']
  · exact (emin_eq_right h1').symm
  · rw [emin_eq_right (EInt.leb_trans h2' h1')]

theorem emin_comm (a b : EInt) : emin a b = emin b a := by
  rcases emin_cases a b with ⟨h, h'⟩ | ⟨h, h'⟩ <;> rw [h]
  · exact (emin_eq_right h').symm
  · exact (emin_eq_left h').symm

/-! ### Board model lemmas -/

theorem mem_available_moves {b : Board} {m : Nat} :
    m ∈ available_moves b ↔ m < b.length ∧ b[m]? = some EMPTY := by
  simp [available_moves, List.mem_filter, List.mem_range]

theorem available_moves_empty_cell {b : Board} {m : Nat}
    (h : m ∈ available_moves b) : b[m]? = some EMPTY :=
  (mem_available_moves.mp h).2

theorem available_moves_pairwise (b : Board) :
    (available_moves b).Pairwise (· < ·) :=
  (List.pairwise_lt_range b.length).filter _

theorem set_getElem?_self {α : Type} :
    ∀ (l : List α) (i : Nat) (x : α), l[i]? = some x → l.set i x = l := by
  intro l
  induction l with
  | nil => intro i x h; simp at h
  | cons a l ih =>
    intro i x h
    cases i with
    | zero => simp at h; simp [List.set, h]
    | succ i => simp at h; simp [List.set, ih i x h]

theorem set_set_empty {b : Board} {m : Nat} (h : b[m]? = some EMPTY)
    (p : Char) : (b.set m p).set m EMPTY = b := by
  rw [List.set_set]; exact set_getElem?_self b m EMPTY h

theorem make_move_empty {b : Board} {m : Nat} (h : b[m]? = some EMPTY)
    (p : Char) : make_move b m p = (true, b.set m p) := by
  simp [make_move, h]

theorem contains_iff_mem {b : Board} {c : Char} :
    b.contains c = true ↔ c ∈ b := by
  rw [List.contains_eq_any_beq]
  simp [List.any_eq_true]

theorem available_moves_nil_of_full {b : Board}
    (h : b.contains EMPTY = false) : available_moves b = [] := by
  cases hm : available_moves b with
  | nil => rfl
  | cons m ms =>
    exfalso
    have hmem : m ∈ available_moves b := by rw [hm]; exact List.mem_cons_self m ms
    have he : b[m]? = some EMPTY := available_moves_empty_cell hmem
    have : EMPTY ∈ b := List.mem_iff_getElem?.mpr ⟨m, he⟩
    rw [← contains_iff_mem] at this
    rw [h] at this
    exact Bool.false_ne_true this

theorem available_moves_ne_nil {b : Board} (hA : is_winner b AI = false)
    (hH : is_winner b HUMAN = false) (hd : is_draw b = false) :
    available_moves b ≠ [] := by
  have hc : b.contains EMPTY = true := by
    by_contra hcc
    rw [Bool.not_eq_true] at hcc
    simp [is_draw, hH, hA] at hd
    exact Bool.false_ne_true (hcc.symm.trans (contains_iff_mem.mpr hd))
  obtain ⟨i, hi⟩ := List.mem_iff_getElem?.mp (contains_iff_mem.mp hc)
  have hlen : i < b.length := by
    rcases List.getElem?_eq_some.mp hi with ⟨h, _⟩
    exact h
  intro hnil
  have : i ∈ available_moves b := mem_available_moves.mpr ⟨hlen, hi⟩
  rw [hnil] at this
  exact List.not_mem_nil i this

/-! ### Restoration: every search call returns the board it was given -/

theorem searchLoopMax_board {rec : Board → Int → Bool → EInt × Board × Nat}
    (hrec : ∀ b' d', (rec b' d' false).2.1 = b') (d : Int) :
    ∀ (ms : List Nat) (b : Board) (best : EInt) (cnt : Nat),
      (∀ m ∈ ms, b[m]? = some EMPTY) →
      (searchLoopMax rec d ms b best cnt).2.1 = b := by
  intro ms
  induction ms with
  | nil => intro b best cnt _; rfl
  | cons m ms ih =>
    intro b best cnt hemp
    have hm : b[m]? = some EMPTY := hemp m (List.mem_cons_self m ms)
    simp only [searchLoopMax, make_move_empty hm, hrec, set_set_empty hm]
    exact ih b _ _ (fun m' hm' => hemp m' (List.mem_cons_of_mem _ hm'))

theorem searchLoopMin_board {rec : Board → Int → Bool → EInt × Board × Nat}
    (hrec : ∀ b' d', (rec b' d' true).2.1 = b') (d : Int) :
    ∀ (ms : List Nat) (b : Board) (best : EInt) (cnt : Nat),
      (∀ m ∈ ms, b[m]? = some EMPTY) →
      (searchLoopMin rec d ms b best cnt).2.1 = b := by
  intro ms
  induction ms with
  | nil => intro b best cnt _; rfl
  | cons m ms ih =>
    intro b best cnt hemp
    have hm : b[m]? = some EMPTY := hemp m (List.mem_cons_self m ms)
    simp only [searchLoopMin, make_move_empty hm, hrec, set_set_empty hm]
    exact ih b _ _ (fun m' hm' => hemp m' (List.mem_cons_of_mem _ hm'))

theorem minimaxFuel_board :
    ∀ (f : Nat) (b : Board) (d : Int) (mx : Bool),
      (minimaxFuel f b d mx).2.1 = b := by
  intro f
  induction f with
  | zero => intro b d mx; rfl
  | succ f ih =>
    intro b d mx
    have hemp : ∀ m ∈ available_moves b, b[m]? = some EMPTY :=
      fun m hm => available_moves_empty_cell hm
    simp only [minimaxFuel]
    split
    · rfl
    · split
      · rfl
      · split
        · rfl
        · split
          · exact searchLoopMax_board (fun b' d' => ih b' d' false) d
              (available_moves b) b .negInf 1 hemp
          · exact searchLoopMin_board (fun b' d' => ih b' d' true) d
              (available_moves b) b .posInf 1 hemp

theorem abLoopMax_board
    {rec : Board → Int → EInt → EInt → Bool → EInt × Board × Nat}
    (hrec : ∀ b' d' al be, (rec b' d' al be false).2.1 = b')
    (d : Int) (beta : EInt) :
    ∀ (ms : List Nat) (b : Board) (me al : EInt) (cnt : Nat),
      (∀ m ∈ ms, b[m]? = some EMPTY) →
      (abLoopMax rec d beta ms b me al cnt).2.1 = b := by
  intro ms
  induction ms with
  | nil => intro b me al cnt _; rfl
  | cons m ms ih =>
    intro b me al cnt hemp
    have hm : b[m]? = some EMPTY := hemp m (List.mem_cons_self m ms)
    simp only [abLoopMax, make_move_empty hm, hrec, set_set_empty hm]
    split
    · rfl
    · exact ih b _ _ _ (fun m' hm' => hemp m' (List.mem_cons_of_mem _ hm'))

theorem abLoopMin_board
    {rec : Board → Int → EInt → EInt → Bool → EInt × Board × Nat}
    (hrec : ∀ b' d' al be, (rec b' d' al be true).2.1 = b')
    (d : Int) (alpha : EInt) :
    ∀ (ms : List Nat) (b : Board) (me be : EInt) (cnt : Nat),
      (∀ m ∈ ms, b[m]? = some EMPTY) →
      (abLoopMin rec d alpha ms b me be cnt).2.1 = b := by
  intro ms
  induction ms with
  | nil => intro b me be cnt _; rfl
  | cons m ms ih =>
    intro b me be cnt hemp
    have hm : b[m]? = some EMPTY := hemp m (List.mem_cons_self m ms)
    simp only [abLoopMin, make_move_empty hm, hrec, set_set_empty hm]
    split
    · rfl
    · exact ih b _ _ _ (fun m' hm' => hemp m' (List.mem_cons_of_mem _ hm'))

theorem alphabetaFuel_board :
    ∀ (f : Nat) (b : Board) (d : Int) (al be : EInt) (mx : Bool),
      (alphabetaFuel f b d al be mx).2.1 = b := by
  intro f
  induction f with
  | zero => intro b d al be mx; rfl
  | succ f ih =>
    intro b d al be mx
    have hemp : ∀ m ∈ available_moves b, b[m]? = some EMPTY :=
      fun m hm => available_moves_empty_cell hm
    simp only [alphabetaFuel]
    split
    · rfl
    · split
      · rfl
      · split
        · rfl
        · split
          · exact abLoopMax_board (fun b' d' a' b'' => ih b' d' a' b'' false)
              d be (available_moves b) b .negInf al 1 hemp
          · exact abLoopMin_board (fun b' d' a' b'' => ih b' d' a' b'' true)
              d al (available_moves b) b .posInf be 1 hemp

theorem minimax_board (b : Board) (d : Int) (mx : Bool) :
    (minimax b d mx).2.1 = b :=
  minimaxFuel_board 10 b d mx

theorem alphabeta_board (b : Board) (d : Int) (al be : EInt) (mx : Bool) :
    (alphabeta b d al be mx).2.1 = b :=
  alphabetaFuel_board 10 b d al be mx

theorem gbmLoop_board (flag : Bool) :
    ∀ (ms : List Nat) (b : Board) (bs : EInt) (bm : Option Nat),
      (∀ m ∈ ms, b[m]? = some EMPTY) →
      (gbmLoop flag ms b bs bm).2.2 = b := by
  intro ms
  induction ms with
  | nil => intro b bs bm _; rfl
  | cons m ms ih =>
    intro b bs bm hemp
    have hm : b[m]? = some EMPTY := hemp m (List.mem_cons_self m ms)
    simp only [gbmLoop, make_move_empty hm]
    cases flag <;>
      simp only [Bool.false_eq_true, if_pos, if_neg, cond_false, cond_true,
        ite_true, ite_false, minimax_board, alphabeta_board,
        set_set_empty hm] <;>
      split <;>
      exact ih b _ _ (fun m' hm' => hemp m' (List.mem_cons_of_mem _ hm'))

theorem get_best_move_board (b : Board) (flag : Bool) :
    (get_best_move b flag).2 = b :=
  gbmLoop_board flag (available_moves b) b .negInf none
    (fun m hm => available_moves_empty_cell hm)

/-! ### Pure characterization of the minimax loops -/

theorem searchLoopMax_eq {rec : Board → Int → Bool → EInt × Board × Nat}
    (hrec : ∀ b' d', (rec b' d' false).2.1 = b') (d : Int) :
    ∀ (ms : List Nat) (b : Board) (best : EInt) (cnt : Nat),
      (∀ m ∈ ms, b[m]? = some EMPTY) →
      searchLoopMax rec d ms b best cnt =
        (ms.foldl (fun acc m => emax ((rec (b.set m AI) (d + 1) false).1) acc)
           best, b,
         cnt + (ms.map (fun m => (rec (b.set m AI) (d + 1) false).2.2)).sum) := by
  intro ms
  induction ms with
  | nil => intro b best cnt _; simp [searchLoopMax]
  | cons m ms ih =>
    intro b best cnt hemp
    have hm : b[m]? = some EMPTY := hemp m (List.mem_cons_self m ms)
    simp only [searchLoopMax, make_move_empty hm, hrec, set_set_empty hm]
    rw [ih b _ _ (fun m' hm' => hemp m' (List.mem_cons_of_mem _ hm'))]
    simp [Nat.add_assoc]

theorem searchLoopMin_eq {rec : Board → Int → Bool → EInt × Board × Nat}
    (hrec : ∀ b' d', (rec b' d' true).2.1 = b') (d : Int) :
    ∀ (ms : List Nat) (b : Board) (best : EInt) (cnt : Nat),
      (∀ m ∈ ms, b[m]? = some EMPTY) →
      searchLoopMin rec d ms b best cnt =
        (ms.foldl (fun acc m => emin ((rec (b.set m HUMAN) (d + 1) true).1) acc)
           best, b,
         cnt + (ms.map (fun m => (rec (b.set m HUMAN) (d + 1) true).2.2)).sum) := by
  intro ms
  induction ms with
  | nil => intro b best cnt _; simp [searchLoopMin]
  | cons m ms ih =>
    intro b best cnt hemp
    have hm : b[m]? = some EMPTY := hemp m (List.mem_cons_self m ms)
    simp only [searchLoopMin, make_move_empty hm, hrec, set_set_empty hm]
    rw [ih b _ _ (fun m' hm' => hemp m' (List.mem_cons_of_mem _ hm'))]
    simp [Nat.add_assoc]

theorem minimaxFuel_node_max {f : Nat} {b : Board} {d : Int}
    (hA : is_winner b AI = false) (hH : is_winner b HUMAN = false)
    (hdr : is_draw b = false) :
    minimaxFuel (f + 1) b d true =
      ((available_moves b).foldl
         (fun acc m => emax ((minimaxFuel f (b.set m AI) (d + 1) false).1) acc)
         .negInf, b,
       1 + ((available_moves b).map
         (fun m => (minimaxFuel f (b.set m AI) (d + 1) false).2.2)).sum) := by
  simp only [minimaxFuel, hA, hH, hdr, Bool.false_eq_true, if_false, if_true]
  exact searchLoopMax_eq (fun b' d' => minimaxFuel_board f b' d' false) d
    (available_moves b) b .negInf 1
    (fun m hm => available_moves_empty_cell hm)

theorem minimaxFuel_node_min {f : Nat} {b : Board} {d : Int}
    (hA : is_winner b AI = false) (hH : is_winner b HUMAN = false)
    (hdr : is_draw b = false) :
    minimaxFuel (f + 1) b d false =
      ((available_moves b).foldl
         (fun acc m => emin ((minimaxFuel f (b.set m HUMAN) (d + 1) true).1) acc)
         .posInf, b,
       1 + ((available_moves b).map
         (fun m => (minimaxFuel f (b.set m HUMAN) (d + 1) true).2.2)).sum) := by
  simp only [minimaxFuel, hA, hH, hdr, Bool.false_eq_true, if_false, if_true]
  exact searchLoopMin_eq (fun b' d' => minimaxFuel_board f b' d' true) d
    (available_moves b) b .posInf 1
    (fun m hm => available_moves_empty_cell hm)

/-! ### Fold lemmas for max/min accumulation -/

theorem foldl_emax_le {v : Nat → EInt} {B : EInt} :
    ∀ (ms : List Nat) (acc : EInt), (∀ m ∈ ms, (v m).leb B = true) →
      acc.leb B = true →
      (ms.foldl (fun a m => emax (v m) a) acc).leb B = true := by
  intro ms
  induction ms with
  | nil => intro acc _ hacc; exact hacc
  | cons m ms ih =>
    intro acc hms hacc
    exact ih (emax (v m) acc)
      (fun m' hm' => hms m' (List.mem_cons_of_mem _ hm'))
      (emax_leb (hms m (List.mem_cons_self m ms)) hacc)

theorem foldl_emax_ge_acc {v : Nat → EInt} :
    ∀ (ms : List Nat) (acc : EInt),
      acc.leb (ms.foldl (fun a m => emax (v m) a) acc) = true := by
  intro ms
  induction ms with
  | nil => intro acc; exact EInt.leb_refl acc
  | cons m ms ih =>
    intro acc
    exact EInt.leb_trans (leb_emax_right (v m) acc) (ih (emax (v m) acc))

theorem foldl_emax_ge_mem {v : Nat → EInt} :
    ∀ (ms : List Nat) (acc : EInt) (m : Nat), m ∈ ms →
      (v m).leb (ms.foldl (fun a m => emax (v m) a) acc) = true := by
  intro ms
  induction ms with
  | nil => intro acc m hm; exact absurd hm (List.not_mem_nil m)
  | cons m' ms ih =>
    intro acc m hm
    rcases List.mem_cons.mp hm with h | h
    · subst h
      exact EInt.leb_trans (leb_emax_left (v m) acc)
        (foldl_emax_ge_acc ms (emax (v m) acc))
    · exact ih (emax (v m') acc) m h

theorem foldl_emin_le_acc {v : Nat → EInt} :
    ∀ (ms : List Nat) (acc : EInt),
      (ms.foldl (fun a m => emin (v m) a) acc).leb acc = true := by
  intro ms
  induction ms with
  | nil => intro acc; exact EInt.leb_refl acc
  | cons m ms ih =>
    intro acc
    exact EInt.leb_trans (ih (emin (v m) acc)) (emin_leb_right (v m) acc)

theorem foldl_emin_le_mem {v : Nat → EInt} :
    ∀ (ms : List Nat) (acc : EInt) (m : Nat), m ∈ ms →
      (ms.foldl (fun a m => emin (v m) a) acc).leb (v m) = true := by
  intro ms
  induction ms with
  | nil => intro acc m hm; exact absurd hm (List.not_mem_nil m)
  | cons m' ms ih =>
    intro acc m hm
    rcases List.mem_cons.mp hm with h | h
    · subst h
      exact EInt.leb_trans (foldl_emin_le_acc ms (emin (v m) acc))
        (emin_leb_left (v m) acc)
    · exact ih (emin (v m') acc) m h

theorem foldl_emin_ge {v : Nat → EInt} {B : EInt} :
    ∀ (ms : List Nat) (acc : EInt), (∀ m ∈ ms, B.leb (v m) = true) →
      B.leb acc = true →
      B.leb (ms.foldl (fun a m => emin (v m) a) acc) = true := by
  intro ms
  induction ms with
  | nil => intro acc _ hacc; exact hacc
  | cons m ms ih =>
    intro acc hms hacc
    exact ih (emin (v m) acc)
      (fun m' hm' => hms m' (List.mem_cons_of_mem _ hm'))
      (leb_emin (hms m (List.mem_cons_self m ms)) hacc)

theorem foldl_emax_fin {v : Nat → EInt} :
    ∀ (ms : List Nat) (acc : EInt), (∀ m ∈ ms, ∃ x, v m = .fin x) →
      (∃ x, acc = .fin x) →
      ∃ x, ms.foldl (fun a m => emax (v m) a) acc = .fin x := by
  intro ms
  induction ms with
  | nil => intro acc _ hacc; exact hacc
  | cons m ms ih =>
    intro acc hms hacc
    refine ih (emax (v m) acc)
      (fun m' hm' => hms m' (List.mem_cons_of_mem _ hm')) ?_
    obtain ⟨x, hx⟩ := hms m (List.mem_cons_self m ms)
    obtain ⟨y, hy⟩ := hacc
    rcases emax_cases (v m) acc with ⟨h, _⟩ | ⟨h, _⟩
    · exact ⟨y, h.trans hy⟩
    · exact ⟨x, h.trans hx⟩

theorem foldl_emin_fin {v : Nat → EInt} :
    ∀ (ms : List Nat) (acc : EInt), (∀ m ∈ ms, ∃ x, v m = .fin x) →
      (∃ x, acc = .fin x) →
      ∃ x, ms.foldl (fun a m => emin (v m) a) acc = .fin x := by
  intro ms
  induction ms with
  | nil => intro acc _ hacc; exact hacc
  | cons m ms ih =>
    intro acc hms hacc
    refine ih (emin (v m) acc)
      (fun m' hm' => hms m' (List.mem_cons_of_mem _ hm')) ?_
    obtain ⟨x, hx⟩ := hms m (List.mem_cons_self m ms)
    obtain ⟨y, hy⟩ := hacc
    rcases emin_cases (v m) acc with ⟨h, _⟩ | ⟨h, _⟩
    · exact ⟨x, h.trans hx⟩
    · exact ⟨y, h.trans hy⟩

/-! ### The minimax value is always a finite integer -/

theorem minimaxFuel_fin :
    ∀ (f : Nat) (b : Board) (d : Int) (mx : Bool),
      ∃ x, (minimaxFuel f b d mx).1 = .fin x := by
  intro f
  induction f with
  | zero => intro b d mx; exact ⟨0, rfl⟩
  | succ f ih =>
    intro b d mx
    rcases hA : is_winner b AI with _ | _
    · rcases hH : is_winner b HUMAN with _ | _
      · rcases hdr : is_draw b with _ | _
        · have hne := available_moves_ne_nil hA hH hdr
          cases mx
          · rw [minimaxFuel_node_min hA hH hdr]
            cases hms : available_moves b with
            | nil => exact absurd hms hne
            | cons m ms =>
              simp only [List.foldl_cons, emin_posInf]
              exact foldl_emin_fin ms _
                (fun m' _ => ih (b.set m' HUMAN) (d + 1) true) (ih _ _ _)
          · rw [minimaxFuel_node_max hA hH hdr]
            cases hms : available_moves b with
            | nil => exact absurd hms hne
            | cons m ms =>
              simp only [List.foldl_cons, emax_negInf]
              exact foldl_emax_fin ms _
                (fun m' _ => ih (b.set m' AI) (d + 1) false) (ih _ _ _)
        · exact ⟨0, by simp [minimaxFuel, hA, hH, hdr]⟩
      · exact ⟨d - 10, by simp [minimaxFuel, hA, hH]⟩
    · exact ⟨10 - d, by simp [minimaxFuel, hA]⟩

/-! ### Upper bound on the minimax value: at depth `d` (with enough fuel
margin) the value never exceeds `10 - d` -/

theorem fin_leb_fin {a b : Int} : (EInt.fin a).leb (.fin b) = true ↔ a ≤ b := by
  simp [EInt.leb]

theorem minimaxFuel_le_ub :
    ∀ (f : Nat) (b : Board) (d : Int) (mx : Bool),
      0 ≤ d → d + (f : Int) ≤ 10 →
      (minimaxFuel f b d mx).1.leb (.fin (10 - d)) = true := by
  intro f
  induction f with
  | zero =>
    intro b d mx h0 h10
    simp only [minimaxFuel]
    rw [fin_leb_fin]
    omega
  | succ f ih =>
    intro b d mx h0 h10
    have hstep : (EInt.fin (10 - (d + 1))).leb (.fin (10 - d)) = true := by
      rw [fin_leb_fin]; omega
    rcases hA : is_winner b AI with _ | _
    · rcases hH : is_winner b HUMAN with _ | _
      · rcases hdr : is_draw b with _ | _
        · have hne := available_moves_ne_nil hA hH hdr
          have hch : ∀ (b' : Board) (mx' : Bool),
              (minimaxFuel f b' (d + 1) mx').1.leb (.fin (10 - d)) = true := by
            intro b' mx'
            refine EInt.leb_trans (ih b' (d + 1) mx' (by omega) ?_) hstep
            push_cast at h10 ⊢
            omega
          cases mx
          · rw [minimaxFuel_node_min hA hH hdr]
            cases hms : available_moves b with
            | nil => exact absurd hms hne
            | cons m ms =>
              simp only [List.foldl_cons, emin_posInf]
              exact EInt.leb_trans (foldl_emin_le_acc ms _) (hch _ _)
          · rw [minimaxFuel_node_max hA hH hdr]
            exact foldl_emax_le (available_moves b) _
              (fun m _ => hch (b.set m AI) false) rfl
        · have : (minimaxFuel (f + 1) b d mx).1 = .fin 0 := by
            simp [minimaxFuel, hA, hH, hdr]
          rw [this, fin_leb_fin]; omega
      · simp only [minimaxFuel, hA, hH, Bool.false_eq_true, if_false, if_true]
        rw [fin_leb_fin]; omega
    · simp only [minimaxFuel, hA, if_true]
      rw [fin_leb_fin]

/-! ### Fail-soft correctness of the alpha-beta loops

The loop lemmas relate the alpha-beta loop result `r` to the plain minimax
fold `u` over the same children: if `r` fails low (`r ≤ α`) it is an upper
bound on `u`; if it fails high (`β ≤ r`) it is a lower bound on `u`; and if
it lands strictly inside the window it equals `u`. -/

theorem abLoopMax_main
    {abrec : Board → Int → EInt → EInt → Bool → EInt × Board × Nat}
    {mmrec : Board → Int → Bool → EInt × Board × Nat}
    {d : Int} {al0 be0 : EInt} (hab : al0.ltb be0 = true)
    (habR : ∀ b' d' a' b'', (abrec b' d' a' b'' false).2.1 = b')
    (hM : ∀ (b' : Board) (d' : Int) (a' : EInt), a'.ltb be0 = true →
        (((abrec b' d' a' be0 false).1.leb a' = true →
            (mmrec b' d' false).1.leb (abrec b' d' a' be0 false).1 = true) ∧
         (be0.leb (abrec b' d' a' be0 false).1 = true →
            (abrec b' d' a' be0 false).1.leb (mmrec b' d' false).1 = true) ∧
         (a'.ltb (abrec b' d' a' be0 false).1 = true →
            (abrec b' d' a' be0 false).1.ltb be0 = true →
            (abrec b' d' a' be0 false).1 = (mmrec b' d' false).1))) :
    ∀ (ms : List Nat) (b : Board) (me al mu : EInt) (cnt : Nat),
      (∀ m ∈ ms, b[m]? = some EMPTY) →
      al = emax al0 me →
      al.ltb be0 = true →
      (me.leb al0 = true → mu.leb me = true) →
      (be0.leb me = true → me.leb mu = true) →
      (al0.ltb me = true → me.ltb be0 = true → me = mu) →
      (((abLoopMax abrec d be0 ms b me al cnt).1.leb al0 = true →
          (ms.foldl (fun acc m => emax ((mmrec (b.set m AI) (d + 1) false).1)
            acc) mu).leb (abLoopMax abrec d be0 ms b me al cnt).1 = true) ∧
       (be0.leb (abLoopMax abrec d be0 ms b me al cnt).1 = true →
          (abLoopMax abrec d be0 ms b me al cnt).1.leb
            (ms.foldl (fun acc m => emax ((mmrec (b.set m AI) (d + 1) false).1)
              acc) mu) = true) ∧
       (al0.ltb (abLoopMax abrec d be0 ms b me al cnt).1 = true →
          (abLoopMax abrec d be0 ms b me al cnt).1.ltb be0 = true →
          (abLoopMax abrec d be0 ms b me al cnt).1 =
            ms.foldl (fun acc m => emax ((mmrec (b.set m AI) (d + 1) false).1)
              acc) mu)) := by
  intro ms
  induction ms with
  | nil =>
    intro b me al mu cnt _ _ _ hA2 hA3 hA4
    exact ⟨hA2, hA3, hA4⟩
  | cons m ms ih =>
    intro b me al mu cnt hemp hal halb hA2 hA3 hA4
    have hm : b[m]? = some EMPTY := hemp m (List.mem_cons_self m ms)
    obtain ⟨ca, cb, cc⟩ := hM (b.set m AI) (d + 1) al halb
    simp only [abLoopMax, make_move_empty hm, habR, set_set_empty hm,
      List.foldl_cons]
    generalize hE : (abrec (b.set m AI) (d + 1) al be0 false).1 = e at ca cb cc ⊢
    generalize hV : (mmrec (b.set m AI) (d + 1) false).1 = v at ca cb cc ⊢
    rcases hbr : be0.leb (emax al e) with _ | _
    · -- no break: continue the loop with updated accumulators
      rw [if_neg Bool.false_ne_true]
      refine ih b (emax me e) (emax al e) (emax v mu) _
        (fun m' hm' => hemp m' (List.mem_cons_of_mem _ hm')) ?_
        (by simp [EInt.ltb, hbr]) ?_ ?_ ?_
      · rw [hal, emax_assoc]
      · -- new fail-low invariant
        intro h
        have hme : me.leb al0 = true := EInt.leb_trans (leb_emax_left me e) h
        have he : e.leb al0 = true := EInt.leb_trans (leb_emax_right me e) h
        have hale : al = al0 := by rw [hal, emax_eq_left hme]
        have hve : v.leb e = true := ca (by rw [hale]; exact he)
        exact emax_leb
          (EInt.leb_trans hve (leb_emax_right me e))
          (EInt.leb_trans (hA2 hme) (leb_emax_left me e))
      · -- new fail-high invariant
        intro h
        rcases emax_cases me e with ⟨hc, hcle⟩ | ⟨hc, hcle⟩
        · rw [hc] at h ⊢
          exact EInt.leb_trans (cb h) (leb_emax_left v mu)
        · rw [hc] at h ⊢
          exact EInt.leb_trans (hA3 h) (leb_emax_right v mu)
      · -- new in-window invariant
        intro h1 h2
        rcases emax_cases me e with ⟨hc, hcle⟩ | ⟨hc, hcle⟩
        · -- the new max_eval is the child value e
          rw [hc] at h1 h2 ⊢
          rcases hel : e.leb al with _ | _
          · have hlt : al.ltb e = true := by simp [EInt.ltb, hel]
            have hev : e = v := cc hlt h2
            have hmu_le : mu.leb e = true := by
              rcases hma : me.leb al0 with _ | _
              · have hmelt : al0.ltb me = true := by simp [EInt.ltb, hma]
                have h4 := hA4 hmelt (EInt.ltb_of_leb_of_ltb hcle h2)
                rw [← h4]
                exact hcle
              · exact EInt.leb_trans (hA2 hma) hcle
            rw [← hev]
            exact (emax_eq_left hmu_le).symm
          · -- e ≤ al: then al = me and hence e = me
            rcases emax_cases al0 me with ⟨hc2, hcle2⟩ | ⟨hc2, hcle2⟩
            · have hem : e = me := by
                rw [hal, hc2] at hel
                exact EInt.leb_antisymm hel hcle
              rw [hem] at h1 h2 ca ⊢
              have hmm := hA4 h1 h2
              have hvm : v.leb me = true := by
                refine ca ?_
                rw [hal, hc2]
                exact EInt.leb_refl me
              rw [← hmm]
              exact (emax_eq_right hvm).symm
            · exfalso
              rw [hal, hc2] at hel
              rw [EInt.ltb_eq_true] at h1
              rw [h1] at hel
              exact Bool.false_ne_true hel
        · -- the new max_eval is the old one
          rw [hc] at h1 h2 ⊢
          have hmm := hA4 h1 h2
          have hvm : v.leb me = true := by
            rcases hel : e.leb al with _ | _
            · have hlt : al.ltb e = true := by simp [EInt.ltb, hel]
              have hev := cc hlt (EInt.ltb_of_leb_of_ltb hcle h2)
              rw [← hev]
              exact hcle
            · exact EInt.leb_trans (ca hel) hcle
          rw [← hmm]
          exact (emax_eq_right hvm).symm
    · -- break: beta <= alpha after this child
      rw [if_pos rfl]
      have hbe : be0.leb e = true := by
        rcases emax_cases al e with ⟨hc, _⟩ | ⟨hc, hcle⟩
        · rw [hc] at hbr; exact hbr
        · exfalso
          rw [EInt.ltb_eq_true] at halb
          rw [hc] at hbr
          rw [halb] at hbr
          exact Bool.false_ne_true hbr
      have hev : e.leb v = true := cb hbe
      have hbre : be0.leb (emax me e) = true :=
        EInt.leb_trans hbe (leb_emax_right me e)
      refine ⟨?_, ?_, ?_⟩
      · -- fail low is impossible here
        intro h
        exfalso
        have hba : be0.leb al0 = true := EInt.leb_trans hbre h
        rw [EInt.ltb_eq_true] at hab
        rw [hab] at hba
        exact Bool.false_ne_true hba
      · -- fail high: the result bounds the full minimax fold from below
        intro _
        rcases emax_cases me e with ⟨hc, hcle⟩ | ⟨hc, hcle⟩
        · rw [hc]
          refine EInt.leb_trans hev ?_
          exact EInt.leb_trans (leb_emax_left v mu) (foldl_emax_ge_acc ms _)
        · rw [hc]
          have hme : me.leb mu = true := hA3 (by rw [← hc]; exact hbre)
          refine EInt.leb_trans hme ?_
          exact EInt.leb_trans (leb_emax_right v mu) (foldl_emax_ge_acc ms _)
      · -- strictly inside the window is impossible here
        intro _ h2
        exfalso
        rw [EInt.ltb_eq_true] at h2
        rw [h2] at hbre
        exact Bool.false_ne_true hbre

theorem abLoopMin_main
    {abrec : Board → Int → EInt → EInt → Bool → EInt × Board × Nat}
    {mmrec : Board → Int → Bool → EInt × Board × Nat}
    {d : Int} {al0 be0 : EInt} (hab : al0.ltb be0 = true)
    (habR : ∀ b' d' a' b'', (abrec b' d' a' b'' true).2.1 = b')
    (hM : ∀ (b' : Board) (d' : Int) (be' : EInt), al0.ltb be' = true →
        (((abrec b' d' al0 be' true).1.leb al0 = true →
            (mmrec b' d' true).1.leb (abrec b' d' al0 be' true).1 = true) ∧
         (be'.leb (abrec b' d' al0 be' true).1 = true →
            (abrec b' d' al0 be' true).1.leb (mmrec b' d' true).1 = true) ∧
         (al0.ltb (abrec b' d' al0 be' true).1 = true →
            (abrec b' d' al0 be' true).1.ltb be' = true →
            (abrec b' d' al0 be' true).1 = (mmrec b' d' true).1))) :
    ∀ (ms : List Nat) (b : Board) (me be mu : EInt) (cnt : Nat),
      (∀ m ∈ ms, b[m]? = some EMPTY) →
      be = emin be0 me →
      al0.ltb be = true →
      (be0.leb me = true → me.leb mu = true) →
      (me.leb al0 = true → mu.leb me = true) →
      (al0.ltb me = true → me.ltb be0 = true → me = mu) →
      (((abLoopMin abrec d al0 ms b me be cnt).1.leb al0 = true →
          (ms.foldl (fun acc m => emin ((mmrec (b.set m HUMAN) (d + 1) true).1)
            acc) mu).leb (abLoopMin abrec d al0 ms b me be cnt).1 = true) ∧
       (be0.leb (abLoopMin abrec d al0 ms b me be cnt).1 = true →
          (abLoopMin abrec d al0 ms b me be cnt).1.leb
            (ms.foldl (fun acc m => emin ((mmrec (b.set m HUMAN) (d + 1) true).1)
              acc) mu) = true) ∧
       (al0.ltb (abLoopMin abrec d al0 ms b me be cnt).1 = true →
          (abLoopMin abrec d al0 ms b me be cnt).1.ltb be0 = true →
          (abLoopMin abrec d al0 ms b me be cnt).1 =
            ms.foldl (fun acc m => emin ((mmrec (b.set m HUMAN) (d + 1) true).1)
              acc) mu)) := by
  intro ms
  induction ms with
  | nil =>
    intro b me be mu cnt _ _ _ hM2 hM3 hM4
    exact ⟨hM3, hM2, hM4⟩
  | cons m ms ih =>
    intro b me be mu cnt hemp hbe halbe hM2 hM3 hM4
    have hm : b[m]? = some EMPTY := hemp m (List.mem_cons_self m ms)
    obtain ⟨ca, cb, cc⟩ := hM (b.set m HUMAN) (d + 1) be halbe
    simp only [abLoopMin, make_move_empty hm, habR, set_set_empty hm,
      List.foldl_cons]
    generalize hE : (abrec (b.set m HUMAN) (d + 1) al0 be true).1 = e at ca cb cc ⊢
    generalize hV : (mmrec (b.set m HUMAN) (d + 1) true).1 = v at ca cb cc ⊢
    rcases hbr : (emin be e).leb al0 with _ | _
    · -- no break: continue the loop with updated accumulators
      rw [if_neg Bool.false_ne_true]
      refine ih b (emin me e) (emin be e) (emin v mu) _
        (fun m' hm' => hemp m' (List.mem_cons_of_mem _ hm')) ?_
        (by simp [EInt.ltb, hbr]) ?_ ?_ ?_
      · rw [hbe, emin_assoc]
      · -- new fail-high invariant
        intro h
        have hme : be0.leb me = true := EInt.leb_trans h (emin_leb_left me e)
        have he : be0.leb e = true := EInt.leb_trans h (emin_leb_right me e)
        have hbee : be = be0 := by rw [hbe, emin_eq_left hme]
        have hev : e.leb v = true := cb (by rw [hbee]; exact he)
        exact leb_emin
          (EInt.leb_trans (emin_leb_right me e) hev)
          (EInt.leb_trans (emin_leb_left me e) (hM2 hme))
      · -- new fail-low invariant
        intro h
        rcases emin_cases me e with ⟨hc, hcle⟩ | ⟨hc, hcle⟩
        · rw [hc] at h ⊢
          exact EInt.leb_trans (emin_leb_right v mu) (hM3 h)
        · rw [hc] at h ⊢
          exact EInt.leb_trans (emin_leb_left v mu) (ca h)
      · -- new in-window invariant
        intro h1 h2
        rcases emin_cases me e with ⟨hc, hcle⟩ | ⟨hc, hcle⟩
        · -- the new min_eval is the old one
          rw [hc] at h1 h2 ⊢
          have hmm := hM4 h1 h2
          have hmv : me.leb v = true := by
            rcases hel : be.leb e with _ | _
            · have hlt : e.ltb be = true := by simp [EInt.ltb, hel]
              have hae : al0.ltb e = true := EInt.ltb_of_ltb_of_leb h1 hcle
              have hev := cc hae hlt
              rw [← hev]
              exact hcle
            · exact EInt.leb_trans hcle (cb hel)
          rw [← hmm]
          exact (emin_eq_right hmv).symm
        · -- the new min_eval is the child value e
          rw [hc] at h1 h2 ⊢
          rcases hel : be.leb e with _ | _
          · -- e < be: the child landed inside its window
            have hlt : e.ltb be = true := by simp [EInt.ltb, hel]
            have hev := cc h1 hlt
            have hemu : e.leb mu = true := by
              rcases hmb : be0.leb me with _ | _
              · have hmlt : me.ltb be0 = true := by simp [EInt.ltb, hmb]
                have hamlt : al0.ltb me = true := EInt.ltb_of_ltb_of_leb h1 hcle
                have hmm := hM4 hamlt hmlt
                rw [← hmm]
                exact hcle
              · exact EInt.leb_trans hcle (hM2 hmb)
            rw [← hev]
            exact (emin_eq_left hemu).symm
          · -- be ≤ e: then be = me and hence e = me
            rcases emin_cases be0 me with ⟨hc2, hcle2⟩ | ⟨hc2, hcle2⟩
            · exfalso
              rw [hbe, hc2] at hel
              rw [EInt.ltb_eq_true] at h2
              rw [h2] at hel
              exact Bool.false_ne_true hel
            · have hem : e = me := by
                rw [hbe, hc2] at hel
                exact EInt.leb_antisymm hcle hel
              rw [hem] at h1 h2 ⊢
              have hmm := hM4 h1 h2
              have hmv : me.leb v = true := by
                rw [hem] at cb
                refine cb ?_
                rw [hbe, hc2]
                exact EInt.leb_refl me
              rw [← hmm]
              exact (emin_eq_right hmv).symm
    · -- break: beta <= alpha after this child
      rw [if_pos rfl]
      have hae : e.leb al0 = true := by
        rcases emin_cases be e with ⟨hc, _⟩ | ⟨hc, hcle⟩
        · exfalso
          rw [hc] at hbr
          rw [EInt.ltb_eq_true] at halbe
          rw [halbe] at hbr
          exact Bool.false_ne_true hbr
        · rw [hc] at hbr
          exact hbr
      have hva : v.leb e = true := ca hae
      have hrle : (emin me e).leb al0 = true :=
        EInt.leb_trans (emin_leb_right me e) hae
      refine ⟨?_, ?_, ?_⟩
      · -- fail low: the result bounds the full minimax fold from above
        intro _
        rcases emin_cases me e with ⟨hc, hcle⟩ | ⟨hc, hcle⟩
        · rw [hc]
          have hmea : me.leb al0 = true := EInt.leb_trans hcle hae
          refine EInt.leb_trans ?_ (hM3 hmea)
          exact EInt.leb_trans (foldl_emin_le_acc ms _) (emin_leb_right v mu)
        · rw [hc]
          refine EInt.leb_trans ?_ hva
          exact EInt.leb_trans (foldl_emin_le_acc ms _) (emin_leb_left v mu)
      · -- fail high is impossible here
        intro h
        exfalso
        have hba : be0.leb al0 = true := EInt.leb_trans h hrle
        rw [EInt.ltb_eq_true] at hab
        rw [hab] at hba
        exact Bool.false_ne_true hba
      · -- strictly inside the window is impossible here
        intro h1 _
        exfalso
        rw [EInt.ltb_eq_true] at h1
        rw [h1] at hrle
        exact Bool.false_ne_true hrle

theorem alphabeta_fail_soft :
    ∀ (f : Nat) (b : Board) (d : Int) (al be : EInt) (mx : Bool),
      al.ltb be = true →
      (((alphabetaFuel f b d al be mx).1.leb al = true →
          (minimaxFuel f b d mx).1.leb (alphabetaFuel f b d al be mx).1 = true) ∧
       (be.leb (alphabetaFuel f b d al be mx).1 = true →
          (alphabetaFuel f b d al be mx).1.leb (minimaxFuel f b d mx).1 = true) ∧
       (al.ltb (alphabetaFuel f b d al be mx).1 = true →
          (alphabetaFuel f b d al be mx).1.ltb be = true →
          (alphabetaFuel f b d al be mx).1 = (minimaxFuel f b d mx).1)) := by
  intro f
  induction f with
  | zero =>
    intro b d al be mx _
    exact ⟨fun _ => EInt.leb_refl _, fun _ => EInt.leb_refl _, fun _ _ => rfl⟩
  | succ f ih =>
    intro b d al be mx hw
    rcases hA : is_winner b AI with _ | _
    · rcases hH : is_winner b HUMAN with _ | _
      · rcases hdr : is_draw b with _ | _
        · -- non-terminal node
          cases mx
          · -- minimizing node
            have habv : alphabetaFuel (f + 1) b d al be false =
                abLoopMin (alphabetaFuel f) d al (available_moves b) b
                  .posInf be 1 := by
              simp [alphabetaFuel, hA, hH, hdr]
            rw [habv, minimaxFuel_node_min hA hH hdr]
            exact abLoopMin_main hw
              (fun b' d' a' b'' => alphabetaFuel_board f b' d' a' b'' true)
              (fun b' d' be' hw' => ih b' d' al be' true hw')
              (available_moves b) b .posInf be .posInf 1
              (fun m hm => available_moves_empty_cell hm)
              (emin_posInf be).symm hw
              (fun _ => EInt.leb_refl _)
              (fun _ => EInt.leb_refl _)
              (fun _ h => by simp [EInt.ltb, EInt.leb_posInf] at h)
          · -- maximizing node
            have habv : alphabetaFuel (f + 1) b d al be true =
                abLoopMax (alphabetaFuel f) d be (available_moves b) b
                  .negInf al 1 := by
              simp [alphabetaFuel, hA, hH, hdr]
            rw [habv, minimaxFuel_node_max hA hH hdr]
            exact abLoopMax_main hw
              (fun b' d' a' b'' => alphabetaFuel_board f b' d' a' b'' false)
              (fun b' d' a' hw' => ih b' d' a' be false hw')
              (available_moves b) b .negInf al .negInf 1
              (fun m hm => available_moves_empty_cell hm)
              (emax_negInf al).symm hw
              (fun _ => EInt.leb_refl _)
              (fun _ => EInt.leb_refl _)
              (fun h _ => by simp [EInt.ltb, EInt.negInf_leb] at h)
        · -- draw leaf
          have h1 : (alphabetaFuel (f + 1) b d al be mx).1 = .fin 0 := by
            simp [alphabetaFuel, hA, hH, hdr]
          have h2 : (minimaxFuel (f + 1) b d mx).1 = .fin 0 := by
            simp [minimaxFuel, hA, hH, hdr]
          rw [h1, h2]
          exact ⟨fun _ => EInt.leb_refl _, fun _ => EInt.leb_refl _,
            fun _ _ => rfl⟩
      · -- human-win leaf
        have h1 : (alphabetaFuel (f + 1) b d al be mx).1 = .fin (d - 10) := by
          simp [alphabetaFuel, hA, hH]
        have h2 : (minimaxFuel (f + 1) b d mx).1 = .fin (d - 10) := by
          simp [minimaxFuel, hA, hH]
        rw [h1, h2]
        exact ⟨fun _ => EInt.leb_refl _, fun _ => EInt.leb_refl _,
          fun _ _ => rfl⟩
    · -- AI-win leaf
      have h1 : (alphabetaFuel (f + 1) b d al be mx).1 = .fin (10 - d) := by
        simp [alphabetaFuel, hA]
      have h2 : (minimaxFuel (f + 1) b d mx).1 = .fin (10 - d) := by
        simp [minimaxFuel, hA]
      rw [h1, h2]
      exact ⟨fun _ => EInt.leb_refl _, fun _ => EInt.leb_refl _,
        fun _ _ => rfl⟩

theorem alphabetaFuel_eq_minimaxFuel (f : Nat) (b : Board) (d : Int)
    (mx : Bool) :
    (alphabetaFuel f b d .negInf .posInf mx).1 = (minimaxFuel f b d mx).1 := by
  obtain ⟨pa, pb, pc⟩ :=
    alphabeta_fail_soft f b d .negInf .posInf mx (by decide)
  rcases hr : (alphabetaFuel f b d .negInf .posInf mx).1 with _ | x | _
  · rw [hr] at pa
    exact (EInt.leb_negInf (pa rfl)).symm
  · rw [hr] at pc
    exact pc (by simp [EInt.ltb, EInt.leb]) (by simp [EInt.ltb, EInt.leb])
  · rw [hr] at pb
    exact (EInt.posInf_leb (pb rfl)).symm

/-! ### Call counting: alpha-beta never performs more recursive evaluation
calls than minimax -/

theorem abLoopMax_cnt
    {abrec : Board → Int → EInt → EInt → Bool → EInt × Board × Nat}
    {mmrec : Board → Int → Bool → EInt × Board × Nat}
    {d : Int} {be0 : EInt}
    (habR : ∀ b' d' a' b'', (abrec b' d' a' b'' false).2.1 = b')
    (hcnt : ∀ b' d' a',
      (abrec b' d' a' be0 false).2.2 ≤ (mmrec b' d' false).2.2) :
    ∀ (ms : List Nat) (b : Board) (me al : EInt) (cnt : Nat),
      (∀ m ∈ ms, b[m]? = some EMPTY) →
      (abLoopMax abrec d be0 ms b me al cnt).2.2 ≤
        cnt + (ms.map (fun m => (mmrec (b.set m AI) (d + 1) false).2.2)).sum := by
  intro ms
  induction ms with
  | nil => intro b me al cnt _; simp [abLoopMax]
  | cons m ms ih =>
    intro b me al cnt hemp
    have hm : b[m]? = some EMPTY := hemp m (List.mem_cons_self m ms)
    have hc := hcnt (b.set m AI) (d + 1) al
    simp only [abLoopMax, make_move_empty hm, habR, set_set_empty hm,
      List.map_cons, List.sum_cons]
    rcases hbr : be0.leb (emax al (abrec (b.set m AI) (d + 1) al be0 false).1)
      with _ | _
    · rw [if_neg Bool.false_ne_true]
      refine Nat.le_trans
        (ih b _ _ _ (fun m' hm' => hemp m' (List.mem_cons_of_mem _ hm'))) ?_
      omega
    · rw [if_pos rfl]
      show cnt + (abrec (b.set m AI) (d + 1) al be0 false).2.2 ≤ _
      omega

theorem abLoopMin_cnt
    {abrec : Board → Int → EInt → EInt → Bool → EInt × Board × Nat}
    {mmrec : Board → Int → Bool → EInt × Board × Nat}
    {d : Int} {al0 : EInt}
    (habR : ∀ b' d' a' b'', (abrec b' d' a' b'' true).2.1 = b')
    (hcnt : ∀ b' d' be',
      (abrec b' d' al0 be' true).2.2 ≤ (mmrec b' d' true).2.2) :
    ∀ (ms : List Nat) (b : Board) (me be : EInt) (cnt : Nat),
      (∀ m ∈ ms, b[m]? = some EMPTY) →
      (abLoopMin abrec d al0 ms b me be cnt).2.2 ≤
        cnt + (ms.map
          (fun m => (mmrec (b.set m HUMAN) (d + 1) true).2.2)).sum := by
  intro ms
  induction ms with
  | nil => intro b me be cnt _; simp [abLoopMin]
  | cons m ms ih =>
    intro b me be cnt hemp
    have hm : b[m]? = some EMPTY := hemp m (List.mem_cons_self m ms)
    have hc := hcnt (b.set m HUMAN) (d + 1) be
    simp only [abLoopMin, make_move_empty hm, habR, set_set_empty hm,
      List.map_cons, List.sum_cons]
    rcases hbr :
        (emin be (abrec (b.set m HUMAN) (d + 1) al0 be true).1).leb al0
      with _ | _
    · rw [if_neg Bool.false_ne_true]
      refine Nat.le_trans
        (ih b _ _ _ (fun m' hm' => hemp m' (List.mem_cons_of_mem _ hm'))) ?_
      omega
    · rw [if_pos rfl]
      show cnt + (abrec (b.set m HUMAN) (d + 1) al0 be true).2.2 ≤ _
      omega

theorem alphabetaFuel_cnt_le :
    ∀ (f : Nat) (b : Board) (d : Int) (al be : EInt) (mx : Bool),
      (alphabetaFuel f b d al be mx).2.2 ≤ (minimaxFuel f b d mx).2.2 := by
  intro f
  induction f with
  | zero => intro b d al be mx; exact Nat.le_refl 1
  | succ f ih =>
    intro b d al be mx
    rcases hA : is_winner b AI with _ | _
    · rcases hH : is_winner b HUMAN with _ | _
      · rcases hdr : is_draw b with _ | _
        · cases mx
          · have habv : alphabetaFuel (f + 1) b d al be false =
                abLoopMin (alphabetaFuel f) d al (available_moves b) b
                  .posInf be 1 := by
              simp [alphabetaFuel, hA, hH, hdr]
            rw [habv, minimaxFuel_node_min hA hH hdr]
            exact abLoopMin_cnt
              (fun b' d' a' b'' => alphabetaFuel_board f b' d' a' b'' true)
              (fun b' d' be' => ih b' d' al be' true)
              (available_moves b) b .posInf be 1
              (fun m hm => available_moves_empty_cell hm)
          · have habv : alphabetaFuel (f + 1) b d al be true =
                abLoopMax (alphabetaFuel f) d be (available_moves b) b
                  .negInf al 1 := by
              simp [alphabetaFuel, hA, hH, hdr]
            rw [habv, minimaxFuel_node_max hA hH hdr]
            exact abLoopMax_cnt
              (fun b' d' a' b'' => alphabetaFuel_board f b' d' a' b'' false)
              (fun b' d' a' => ih b' d' a' be false)
              (available_moves b) b .negInf al 1
              (fun m hm => available_moves_empty_cell hm)
        · have h1 : (alphabetaFuel (f + 1) b d al be mx).2.2 = 1 := by
            simp [alphabetaFuel, hA, hH, hdr]
          have h2 : (minimaxFuel (f + 1) b d mx).2.2 = 1 := by
            simp [minimaxFuel, hA, hH, hdr]
          rw [h1, h2]
      · have h1 : (alphabetaFuel (f + 1) b d al be mx).2.2 = 1 := by
          simp [alphabetaFuel, hA, hH]
        have h2 : (minimaxFuel (f + 1) b d mx).2.2 = 1 := by
          simp [minimaxFuel, hA, hH]
        rw [h1, h2]
    · have h1 : (alphabetaFuel (f + 1) b d al be mx).2.2 = 1 := by
        simp [alphabetaFuel, hA]
      have h2 : (minimaxFuel (f + 1) b d mx).2.2 = 1 := by
        simp [minimaxFuel, hA]
      rw [h1, h2]

/-! ### Fuel stability

Once the fuel exceeds the number of empty cells, the result no longer
depends on it: every recursive call of the source places a mark on an
empty cell, so the recursion bottoms out before the fuel does.  Hence the
fuel-10 wrappers compute the converged value of the source's unbounded
recursion on every 9-cell board (at most 9 empty cells). -/

theorem count_set_of_empty :
    ∀ (l : Board) (m : Nat) (p : Char), l[m]? = some EMPTY → p ≠ EMPTY →
      (l.set m p).count EMPTY + 1 = l.count EMPTY := by
  intro l
  induction l with
  | nil => intro m p h _; simp at h
  | cons a l ih =>
    intro m p h hp
    cases m with
    | zero =>
      simp at h
      subst h
      simp [List.set, List.count_cons, hp]
    | succ m =>
      simp at h
      have hrec := ih m p h hp
      simp only [List.set, List.count_cons]
      omega

theorem contains_of_nonterminal {b : Board} (hA : is_winner b AI = false)
    (hH : is_winner b HUMAN = false) (hdr : is_draw b = false) :
    b.contains EMPTY = true := by
  by_contra hcc
  rw [Bool.not_eq_true] at hcc
  simp [is_draw, hH, hA] at hdr
  exact Bool.false_ne_true (hcc.symm.trans (contains_iff_mem.mpr hdr))

theorem searchLoopMax_congr
    {rec rec' : Board → Int → Bool → EInt × Board × Nat}
    (hrec : ∀ b' d', (rec b' d' false).2.1 = b') (d : Int) :
    ∀ (ms : List Nat) (b : Board) (best : EInt) (cnt : Nat),
      (∀ m ∈ ms, b[m]? = some EMPTY) →
      (∀ m ∈ ms, rec (b.set m AI) (d + 1) false =
        rec' (b.set m AI) (d + 1) false) →
      searchLoopMax rec d ms b best cnt =
        searchLoopMax rec' d ms b best cnt := by
  intro ms
  induction ms with
  | nil => intro b best cnt _ _; rfl
  | cons m ms ih =>
    intro b best cnt hemp hag
    have hm : b[m]? = some EMPTY := hemp m (List.mem_cons_self m ms)
    have hagm := hag m (List.mem_cons_self m ms)
    simp only [searchLoopMax, make_move_empty hm, ← hagm, hrec,
      set_set_empty hm]
    exact ih b _ _ (fun m' hm' => hemp m' (List.mem_cons_of_mem _ hm'))
      (fun m' hm' => hag m' (List.mem_cons_of_mem _ hm'))

theorem searchLoopMin_congr
    {rec rec' : Board → Int → Bool → EInt × Board × Nat}
    (hrec : ∀ b' d', (rec b' d' true).2.1 = b') (d : Int) :
    ∀ (ms : List Nat) (b : Board) (best : EInt) (cnt : Nat),
      (∀ m ∈ ms, b[m]? = some EMPTY) →
      (∀ m ∈ ms, rec (b.set m HUMAN) (d + 1) true =
        rec' (b.set m HUMAN) (d + 1) true) →
      searchLoopMin rec d ms b best cnt =
        searchLoopMin rec' d ms b best cnt := by
  intro ms
  induction ms with
  | nil => intro b best cnt _ _; rfl
  | cons m ms ih =>
    intro b best cnt hemp hag
    have hm : b[m]? = some EMPTY := hemp m (List.mem_cons_self m ms)
    have hagm := hag m (List.mem_cons_self m ms)
    simp only [searchLoopMin, make_move_empty hm, ← hagm, hrec,
      set_set_empty hm]
    exact ih b _ _ (fun m' hm' => hemp m' (List.mem_cons_of_mem _ hm'))
      (fun m' hm' => hag m' (List.mem_cons_of_mem _ hm'))

theorem abLoopMax_congr
    {rec rec' : Board → Int → EInt → EInt → Bool → EInt × Board × Nat}
    {d : Int} {be0 : EInt}
    (hrec : ∀ b' d' a' b'', (rec b' d' a' b'' false).2.1 = b') :
    ∀ (ms : List Nat) (b : Board) (me al : EInt) (cnt : Nat),
      (∀ m ∈ ms, b[m]? = some EMPTY) →
      (∀ m ∈ ms, ∀ a' : EInt, rec (b.set m AI) (d + 1) a' be0 false =
        rec' (b.set m AI) (d + 1) a' be0 false) →
      abLoopMax rec d be0 ms b me al cnt =
        abLoopMax rec' d be0 ms b me al cnt := by
  intro ms
  induction ms with
  | nil => intro b me al cnt _ _; rfl
  | cons m ms ih =>
    intro b me al cnt hemp hag
    have hm : b[m]? = some EMPTY := hemp m (List.mem_cons_self m ms)
    have hagm := hag m (List.mem_cons_self m ms)
    simp only [abLoopMax, make_move_empty hm, ← hagm, hrec, set_set_empty hm]
    rcases hbr : be0.leb (emax al (rec (b.set m AI) (d + 1) al be0 false).1)
      with _ | _
    · rw [if_neg Bool.false_ne_true, if_neg Bool.false_ne_true]
      exact ih b _ _ _ (fun m' hm' => hemp m' (List.mem_cons_of_mem _ hm'))
        (fun m' hm' => hag m' (List.mem_cons_of_mem _ hm'))
    · rw [if_pos rfl, if_pos rfl]

theorem abLoopMin_congr
    {rec rec' : Board → Int → EInt → EInt → Bool → EInt × Board × Nat}
    {d : Int} {al0 : EInt}
    (hrec : ∀ b' d' a' b'', (rec b' d' a' b'' true).2.1 = b') :
    ∀ (ms : List Nat) (b : Board) (me be : EInt) (cnt : Nat),
      (∀ m ∈ ms, b[m]? = some EMPTY) →
      (∀ m ∈ ms, ∀ b'' : EInt, rec (b.set m HUMAN) (d + 1) al0 b'' true =
        rec' (b.set m HUMAN) (d + 1) al0 b'' true) →
      abLoopMin rec d al0 ms b me be cnt =
        abLoopMin rec' d al0 ms b me be cnt := by
  intro ms
  induction ms with
  | nil => intro b me be cnt _ _; rfl
  | cons m ms ih =>
    intro b me be cnt hemp hag
    have hm : b[m]? = some EMPTY := hemp m (List.mem_cons_self m ms)
    have hagm := hag m (List.mem_cons_self m ms)
    simp only [abLoopMin, make_move_empty hm, ← hagm, hrec, set_set_empty hm]
    rcases hbr :
        (emin be (rec (b.set m HUMAN) (d + 1) al0 be true).1).leb al0
      with _ | _
    · rw [if_neg Bool.false_ne_true, if_neg Bool.false_ne_true]
      exact ih b _ _ _ (fun m' hm' => hemp m' (List.mem_cons_of_mem _ hm'))
        (fun m' hm' => hag m' (List.mem_cons_of_mem _ hm'))
    · rw [if_pos rfl, if_pos rfl]

theorem minimaxFuel_stable :
    ∀ (f : Nat) (b : Board) (d : Int) (mx : Bool), b.count EMPTY < f →
      minimaxFuel f b d mx = minimaxFuel (f + 1) b d mx := by
  intro f
  induction f with
  | zero => intro b d mx h; exact absurd h (Nat.not_lt_zero _)
  | succ f ih =>
    intro b d mx hcount
    rcases hA : is_winner b AI with _ | _
    · rcases hH : is_winner b HUMAN with _ | _
      · rcases hdr : is_draw b with _ | _
        · have hc1 : 0 < b.count EMPTY :=
            List.count_pos_iff.mpr
              (contains_iff_mem.mp (contains_of_nonterminal hA hH hdr))
          have hemp : ∀ m ∈ available_moves b, b[m]? = some EMPTY :=
            fun m hm => available_moves_empty_cell hm
          cases mx
          · have h1 : minimaxFuel (f + 1) b d false =
                searchLoopMin (minimaxFuel f) d (available_moves b) b
                  .posInf 1 := by
              simp [minimaxFuel, hA, hH, hdr]
            have h2 : minimaxFuel (f + 1 + 1) b d false =
                searchLoopMin (minimaxFuel (f + 1)) d (available_moves b) b
                  .posInf 1 := by
              simp [minimaxFuel, hA, hH, hdr]
            rw [h1, h2]
            refine searchLoopMin_congr
              (fun b' d' => minimaxFuel_board f b' d' true) d
              (available_moves b) b .posInf 1 hemp ?_
            intro m hm
            refine ih (b.set m HUMAN) (d + 1) true ?_
            have hdec := count_set_of_empty b m HUMAN
              (available_moves_empty_cell hm) (by decide)
            omega
          · have h1 : minimaxFuel (f + 1) b d true =
                searchLoopMax (minimaxFuel f) d (available_moves b) b
                  .negInf 1 := by
              simp [minimaxFuel, hA, hH, hdr]
            have h2 : minimaxFuel (f + 1 + 1) b d true =
                searchLoopMax (minimaxFuel (f + 1)) d (available_moves b) b
                  .negInf 1 := by
              simp [minimaxFuel, hA, hH, hdr]
            rw [h1, h2]
            refine searchLoopMax_congr
              (fun b' d' => minimaxFuel_board f b' d' false) d
              (available_moves b) b .negInf 1 hemp ?_
            intro m hm
            refine ih (b.set m AI) (d + 1) false ?_
            have hdec := count_set_of_empty b m AI
              (available_moves_empty_cell hm) (by decide)
            omega
        · have h1 : minimaxFuel (f + 1) b d mx = (.fin 0, b, 1) := by
            simp [minimaxFuel, hA, hH, hdr]
          have h2 : minimaxFuel (f + 1 + 1) b d mx = (.fin 0, b, 1) := by
            simp [minimaxFuel, hA, hH, hdr]
          rw [h1, h2]
      · have h1 : minimaxFuel (f + 1) b d mx = (.fin (d - 10), b, 1) := by
          simp [minimaxFuel, hA, hH]
        have h2 : minimaxFuel (f + 1 + 1) b d mx = (.fin (d - 10), b, 1) := by
          simp [minimaxFuel, hA, hH]
        rw [h1, h2]
    · have h1 : minimaxFuel (f + 1) b d mx = (.fin (10 - d), b, 1) := by
        simp [minimaxFuel, hA]
      have h2 : minimaxFuel (f + 1 + 1) b d mx = (.fin (10 - d), b, 1) := by
        simp [minimaxFuel, hA]
      rw [h1, h2]

theorem alphabetaFuel_stable :
    ∀ (f : Nat) (b : Board) (d : Int) (al be : EInt) (mx : Bool),
      b.count EMPTY < f →
      alphabetaFuel f b d al be mx = alphabetaFuel (f + 1) b d al be mx := by
  intro f
  induction f with
  | zero => intro b d al be mx h; exact absurd h (Nat.not_lt_zero _)
  | succ f ih =>
    intro b d al be mx hcount
    rcases hA : is_winner b AI with _ | _
    · rcases hH : is_winner b HUMAN with _ | _
      · rcases hdr : is_draw b with _ | _
        · have hc1 : 0 < b.count EMPTY :=
            List.count_pos_iff.mpr
              (contains_iff_mem.mp (contains_of_nonterminal hA hH hdr))
          have hemp : ∀ m ∈ available_moves b, b[m]? = some EMPTY :=
            fun m hm => available_moves_empty_cell hm
          cases mx
          · have h1 : alphabetaFuel (f + 1) b d al be false =
                abLoopMin (alphabetaFuel f) d al (available_moves b) b
                  .posInf be 1 := by
              simp [alphabetaFuel, hA, hH, hdr]
            have h2 : alphabetaFuel (f + 1 + 1) b d al be false =
                abLoopMin (alphabetaFuel (f + 1)) d al (available_moves b) b
                  .posInf be 1 := by
              simp [alphabetaFuel, hA, hH, hdr]
            rw [h1, h2]
            refine abLoopMin_congr
              (fun b' d' a' b'' => alphabetaFuel_board f b' d' a' b'' true)
              (available_moves b) b .posInf be 1 hemp ?_
            intro m hm b''
            refine ih (b.set m HUMAN) (d + 1) al b'' true ?_
            have hdec := count_set_of_empty b m HUMAN
              (available_moves_empty_cell hm) (by decide)
            omega
          · have h1 : alphabetaFuel (f + 1) b d al be true =
                abLoopMax (alphabetaFuel f) d be (available_moves b) b
                  .negInf al 1 := by
              simp [alphabetaFuel, hA, hH, hdr]
            have h2 : alphabetaFuel (f + 1 + 1) b d al be true =
                abLoopMax (alphabetaFuel (f + 1)) d be (available_moves b) b
                  .negInf al 1 := by
              simp [alphabetaFuel, hA, hH, hdr]
            rw [h1, h2]
            refine abLoopMax_congr
              (fun b' d' a' b'' => alphabetaFuel_board f b' d' a' b'' false)
              (available_moves b) b .negInf al 1 hemp ?_
            intro m hm a'
            refine ih (b.set m AI) (d + 1) a' be false ?_
            have hdec := count_set_of_empty b m AI
              (available_moves_empty_cell hm) (by decide)
            omega
        · have h1 : alphabetaFuel (f + 1) b d al be mx = (.fin 0, b, 1) := by
            simp [alphabetaFuel, hA, hH, hdr]
          have h2 : alphabetaFuel (f + 1 + 1) b d al be mx =
              (.fin 0, b, 1) := by
            simp [alphabetaFuel, hA, hH, hdr]
          rw [h1, h2]
      · have h1 : alphabetaFuel (f + 1) b d al be mx =
            (.fin (d - 10), b, 1) := by
          simp [alphabetaFuel, hA, hH]
        have h2 : alphabetaFuel (f + 1 + 1) b d al be mx =
            (.fin (d - 10), b, 1) := by
          simp [alphabetaFuel, hA, hH]
        rw [h1, h2]
    · have h1 : alphabetaFuel (f + 1) b d al be mx =
          (.fin (10 - d), b, 1) := by
        simp [alphabetaFuel, hA]
      have h2 : alphabetaFuel (f + 1 + 1) b d al be mx =
          (.fin (10 - d), b, 1) := by
        simp [alphabetaFuel, hA]
      rw [h1, h2]

theorem minimaxFuel_eq_of_le :
    ∀ (f g : Nat) (b : Board) (d : Int) (mx : Bool),
      b.count EMPTY < f → f ≤ g →
      minimaxFuel f b d mx = minimaxFuel g b d mx := by
  have key : ∀ (k f : Nat) (b : Board) (d : Int) (mx : Bool),
      b.count EMPTY < f →
      minimaxFuel f b d mx = minimaxFuel (f + k) b d mx := by
    intro k
    induction k with
    | zero => intro f b d mx _; rfl
    | succ k ih =>
      intro f b d mx h
      rw [ih f b d mx h, show f + (k + 1) = (f + k) + 1 from rfl]
      exact minimaxFuel_stable (f + k) b d mx (by omega)
  intro f g b d mx hf hle
  obtain ⟨k, hk⟩ := Nat.exists_eq_add_of_le hle
  rw [hk]
  exact key k f b d mx hf

theorem alphabetaFuel_eq_of_le :
    ∀ (f g : Nat) (b : Board) (d : Int) (al be : EInt) (mx : Bool),
      b.count EMPTY < f → f ≤ g →
      alphabetaFuel f b d al be mx = alphabetaFuel g b d al be mx := by
  have key : ∀ (k f : Nat) (b : Board) (d : Int) (al be : EInt) (mx : Bool),
      b.count EMPTY < f →
      alphabetaFuel f b d al be mx = alphabetaFuel (f + k) b d al be mx := by
    intro k
    induction k with
    | zero => intro f b d al be mx _; rfl
    | succ k ih =>
      intro f b d al be mx h
      rw [ih f b d al be mx h, show f + (k + 1) = (f + k) + 1 from rfl]
      exact alphabetaFuel_stable (f + k) b d al be mx (by omega)
  intro f g b d al be mx hf hle
  obtain ⟨k, hk⟩ := Nat.exists_eq_add_of_le hle
  rw [hk]
  exact key k f b d al be mx hf

theorem minimax_eq_minimaxFuel (b : Board) (f : Nat) (d : Int) (mx : Bool)
    (hb : b.length = 9) (hf : 10 ≤ f) :
    minimax b d mx = minimaxFuel f b d mx := by
  refine minimaxFuel_eq_of_le 10 f b d mx ?_ hf
  have h := List.count_le_length EMPTY b
  omega

theorem alphabeta_eq_alphabetaFuel (b : Board) (f : Nat) (d : Int)
    (al be : EInt) (mx : Bool) (hb : b.length = 9) (hf : 10 ≤ f) :
    alphabeta b d al be mx = alphabetaFuel f b d al be mx := by
  refine alphabetaFuel_eq_of_le 10 f b d al be mx ?_ hf
  have h := List.count_le_length EMPTY b
  omega

/-! ### Specification of `get_best_move` -/

/-- The score `get_best_move` computes for a candidate move: apply the move
as the AI and evaluate the resulting position with the chosen procedure
(depth 0, minimizing side to move next, full window when pruning). -/
def moveScore (use_ab : Bool) (b : Board) (m : Nat) : EInt :=
  if use_ab then (alphabeta (b.set m AI) 0 .negInf .posInf false).1
  else (minimax (b.set m AI) 0 false).1

/-- One step of the best-move selection: keep the candidate only on a
strict improvement (`score > best_score`). -/
def gbmStep (sc : Nat → EInt) (acc : EInt × Option Nat) (m : Nat) :
    EInt × Option Nat :=
  if acc.1.ltb (sc m) then (sc m, some m) else acc

theorem gbmLoop_eq (flag : Bool) :
    ∀ (ms : List Nat) (b : Board) (bs : EInt) (bm : Option Nat),
      (∀ m ∈ ms, b[m]? = some EMPTY) →
      gbmLoop flag ms b bs bm =
        ((ms.foldl (gbmStep (moveScore flag b)) (bs, bm)).2,
         (ms.foldl (gbmStep (moveScore flag b)) (bs, bm)).1, b) := by
  intro ms
  induction ms with
  | nil => intro b bs bm _; rfl
  | cons m ms ih =>
    intro b bs bm hemp
    have hm : b[m]? = some EMPTY := hemp m (List.mem_cons_self m ms)
    simp only [gbmLoop, make_move_empty hm]
    have hpb : (if flag = true
        then alphabeta (b.set m AI) 0 .negInf .posInf false
        else minimax (b.set m AI) 0 false).2.1 = b.set m AI := by
      cases flag <;> simp [alphabeta_board, minimax_board]
    have hpv : (if flag = true
        then alphabeta (b.set m AI) 0 .negInf .posInf false
        else minimax (b.set m AI) 0 false).1 = moveScore flag b m := by
      cases flag <;> simp [moveScore]
    simp only [hpb, hpv, set_set_empty hm, List.foldl_cons]
    have hstep : gbmStep (moveScore flag b) (bs, bm) m =
        if bs.ltb (moveScore flag b m) then (moveScore flag b m, some m)
        else (bs, bm) := rfl
    rw [hstep]
    rcases hlt : bs.ltb (moveScore flag b m) with _ | _
    · rw [if_neg Bool.false_ne_true, if_neg Bool.false_ne_true]
      exact ih b bs bm (fun m' hm' => hemp m' (List.mem_cons_of_mem _ hm'))
    · rw [if_pos rfl, if_pos rfl]
      exact ih b _ _ (fun m' hm' => hemp m' (List.mem_cons_of_mem _ hm'))

theorem gbmFold_spec {sc : Nat → EInt} :
    ∀ (ms : List Nat), ms.Pairwise (· < ·) →
      (∀ m ∈ ms, EInt.negInf.ltb (sc m) = true) →
      ∀ (bs : EInt) (bm : Option Nat),
        (bs = .negInf ∧ bm = none ∨
         ∃ m0, bm = some m0 ∧ bs = sc m0) →
        ((ms.foldl (gbmStep sc) (bs, bm)).1 = bs ∧
         (ms.foldl (gbmStep sc) (bs, bm)).2 = bm ∧
         ∀ m ∈ ms, (sc m).leb bs = true) ∨
        (∃ mStar, (ms.foldl (gbmStep sc) (bs, bm)).2 = some mStar ∧
          mStar ∈ ms ∧
          (ms.foldl (gbmStep sc) (bs, bm)).1 = sc mStar ∧
          bs.ltb (sc mStar) = true ∧
          (∀ m ∈ ms, (sc m).leb (sc mStar) = true) ∧
          (∀ m ∈ ms, m < mStar → (sc m).ltb (sc mStar) = true)) := by
  intro ms
  induction ms with
  | nil =>
    intro _ _ bs bm _
    exact Or.inl ⟨rfl, rfl, fun m hm => absurd hm (List.not_mem_nil m)⟩
  | cons m ms ih =>
    intro hsort hfin bs bm hinv
    have hlt_all : ∀ m' ∈ ms, m < m' := (List.pairwise_cons.mp hsort).1
    have hsort' : ms.Pairwise (· < ·) := (List.pairwise_cons.mp hsort).2
    have hfin' : ∀ m' ∈ ms, EInt.negInf.ltb (sc m') = true :=
      fun m' hm' => hfin m' (List.mem_cons_of_mem _ hm')
    simp only [List.foldl_cons]
    have hstep : gbmStep sc (bs, bm) m =
        if bs.ltb (sc m) then (sc m, some m) else (bs, bm) := rfl
    rw [hstep]
    rcases hc : bs.ltb (sc m) with _ | _
    · -- no improvement: sc m ≤ bs
      rw [if_neg Bool.false_ne_true]
      have hscm : (sc m).leb bs = true := EInt.ltb_eq_false.mp hc
      have hinv' : bs = .negInf ∧ bm = none ∨
          ∃ m0, bm = some m0 ∧ bs = sc m0 := hinv
      rcases ih hsort' hfin' bs bm hinv' with ⟨h1, h2, h3⟩ | ⟨ms', p1, p2, p3, p4, p5, p6⟩
      · refine Or.inl ⟨h1, h2, ?_⟩
        intro m' hm'
        rcases List.mem_cons.mp hm' with h | h
        · subst h; exact hscm
        · exact h3 m' h
      · refine Or.inr ⟨ms', p1, List.mem_cons_of_mem _ p2, p3, p4, ?_, ?_⟩
        · intro m' hm'
          rcases List.mem_cons.mp hm' with h | h
          · subst h
            exact EInt.leb_trans hscm (EInt.leb_of_ltb p4)
          · exact p5 m' h
        · intro m' hm' hlt
          rcases List.mem_cons.mp hm' with h | h
          · subst h
            exact EInt.ltb_of_leb_of_ltb hscm p4
          · exact p6 m' h hlt
    · -- strict improvement: the candidate becomes m
      rw [if_pos rfl]
      rcases ih hsort' hfin' (sc m) (some m) (Or.inr ⟨m, rfl, rfl⟩)
        with ⟨h1, h2, h3⟩ | ⟨ms', p1, p2, p3, p4, p5, p6⟩
      · refine Or.inr ⟨m, h2, List.mem_cons_self m ms, h1, hc, ?_, ?_⟩
        · intro m' hm'
          rcases List.mem_cons.mp hm' with h | h
          · subst h; exact EInt.leb_refl _
          · exact h3 m' h
        · intro m' hm' hlt
          rcases List.mem_cons.mp hm' with h | h
          · subst h; exact absurd hlt (Nat.lt_irrefl _)
          · exact absurd hlt (Nat.lt_asymm (hlt_all m' h))
      · refine Or.inr ⟨ms', p1, List.mem_cons_of_mem _ p2, p3,
          EInt.ltb_of_ltb_of_leb hc (EInt.leb_of_ltb p4), ?_, ?_⟩
        · intro m' hm'
          rcases List.mem_cons.mp hm' with h | h
          · subst h; exact EInt.leb_of_ltb p4
          · exact p5 m' h
        · intro m' hm' hlt
          rcases List.mem_cons.mp hm' with h | h
          · subst h; exact p4
          · exact p6 m' h hlt

theorem moveScore_fin (flag : Bool) (b : Board) (m : Nat) :
    ∃ x, moveScore flag b m = .fin x := by
  cases flag
  · exact minimaxFuel_fin 10 (b.set m AI) 0 false
  · show ∃ x, (alphabetaFuel 10 (b.set m AI) 0 .negInf .posInf false).1 = _
    rw [alphabetaFuel_eq_minimaxFuel]
    exact minimaxFuel_fin 10 (b.set m AI) 0 false

theorem negInf_ltb_moveScore (flag : Bool) (b : Board) (m : Nat) :
    EInt.negInf.ltb (moveScore flag b m) = true := by
  obtain ⟨x, hx⟩ := moveScore_fin flag b m
  rw [hx]
  rfl

theorem get_best_move_spec (b : Board) (flag : Bool)
    (hne : available_moves b ≠ []) :
    ∃ m0, (get_best_move b flag).1 = some m0 ∧ m0 ∈ available_moves b ∧
      (∀ m ∈ available_moves b,
        (moveScore flag b m).leb (moveScore flag b m0) = true) ∧
      (∀ m ∈ available_moves b, m < m0 →
        (moveScore flag b m).ltb (moveScore flag b m0) = true) := by
  have hemp : ∀ m ∈ available_moves b, b[m]? = some EMPTY :=
    fun m hm => available_moves_empty_cell hm
  have hchar := gbmLoop_eq flag (available_moves b) b .negInf none hemp
  have hspec := gbmFold_spec (available_moves b) (available_moves_pairwise b)
    (fun m _ => negInf_ltb_moveScore flag b m) .negInf none (Or.inl ⟨rfl, rfl⟩)
  rcases hspec with ⟨_, _, h3⟩ | ⟨ms', p1, p2, p3, _, p5, p6⟩
  · exfalso
    cases hms : available_moves b with
    | nil => exact hne hms
    | cons m ms =>
      have hmem : m ∈ available_moves b := by
        rw [hms]; exact List.mem_cons_self m ms
      have := h3 m hmem
      obtain ⟨x, hx⟩ := moveScore_fin flag b m
      rw [hx] at this
      exact Bool.false_ne_true this
  · refine ⟨ms', ?_, p2, p5, p6⟩
    show (gbmLoop flag (available_moves b) b .negInf none).1 = some ms'
    rw [hchar]
    exact p1

/-! ### Immediate winning moves -/

theorem is_winner_human_set {b : Board} {m : Nat}
    (h : is_winner (b.set m AI) HUMAN = true) : is_winner b HUMAN = true := by
  rw [is_winner, List.any_eq_true] at h ⊢
  obtain ⟨combo, hcm, hall⟩ := h
  refine ⟨combo, hcm, ?_⟩
  rw [List.all_eq_true] at hall ⊢
  intro i hi
  have hh := hall i hi
  simp only [beq_iff_eq] at hh ⊢
  rw [List.getElem?_set] at hh
  by_cases him : m = i
  · rw [if_pos him] at hh
    split at hh
    · simp [AI, HUMAN] at hh
    · simp at hh
  · rw [if_neg him] at hh
    exact hh

theorem score_of_winning_move {b : Board} {w : Nat}
    (hwin : is_winner (b.set w AI) AI = true) :
    (minimax (b.set w AI) 0 false).1 = .fin 10 := by
  show (minimaxFuel 10 (b.set w AI) 0 false).1 = .fin 10
  rw [show (10 : Nat) = 9 + 1 from rfl]
  simp [minimaxFuel, hwin]

theorem score_lt_ten {b : Board} {m : Nat} (hm : b[m]? = some EMPTY)
    (hH : is_winner b HUMAN = false)
    (hnw : is_winner (b.set m AI) AI = false) :
    (minimax (b.set m AI) 0 false).1.ltb (.fin 10) = true := by
  show (minimaxFuel 10 (b.set m AI) 0 false).1.ltb (.fin 10) = true
  have hH' : is_winner (b.set m AI) HUMAN = false := by
    rcases hx : is_winner (b.set m AI) HUMAN with _ | _
    · rfl
    · rw [is_winner_human_set hx] at hH
      exact hH
  rcases hdr : is_draw (b.set m AI) with _ | _
  · -- non-terminal: a minimizing node whose children are at depth 1
    have hne := available_moves_ne_nil hnw hH' hdr
    have hval := minimaxFuel_node_min (f := 9) (d := 0) hnw hH' hdr
    rw [show (10 : Nat) = 9 + 1 from rfl, hval]
    cases hms : available_moves (b.set m AI) with
    | nil => exact absurd hms hne
    | cons m' ms' =>
      have hch : ∀ (b' : Board),
          (minimaxFuel 9 b' (0 + 1) true).1.leb (.fin 9) = true := by
        intro b'
        have := minimaxFuel_le_ub 9 b' (0 + 1) true (by omega) (by norm_num)
        simpa using this
      have h9 : ((m' :: ms').foldl (fun acc mv =>
          emin ((minimaxFuel 9 ((b.set m AI).set mv HUMAN) (0 + 1) true).1)
            acc) .posInf).leb (.fin 9) = true := by
        simp only [List.foldl_cons, emin_posInf]
        exact EInt.leb_trans (foldl_emin_le_acc ms' _) (hch _)
      exact EInt.ltb_of_leb_of_ltb h9 (by decide)
  · -- draw: value 0
    have hval : (minimaxFuel 10 (b.set m AI) 0 false).1 = .fin 0 := by
      rw [show (10 : Nat) = 9 + 1 from rfl]
      simp [minimaxFuel, hnw, hH', hdr]
    rw [hval]
    decide

theorem get_best_move_of_winning_move {b : Board} {w : Nat}
    (hH : is_winner b HUMAN = false)
    (hw : w ∈ available_moves b)
    (hwin : is_winner (b.set w AI) AI = true)
    (hleast : ∀ m ∈ available_moves b, m < w →
      is_winner (b.set m AI) AI = false) :
    (get_best_move b false).1 = some w ∧
      (minimax (b.set w AI) 0 false).1 = .fin 10 := by
  have hsc_w : moveScore false b w = .fin 10 := score_of_winning_move hwin
  have hne : available_moves b ≠ [] := by
    intro h
    rw [h] at hw
    exact List.not_mem_nil w hw
  obtain ⟨m0, hres, hmem, hmax, hfirst⟩ := get_best_move_spec b false hne
  have h10 : moveScore false b m0 = .fin 10 := by
    have hle : (EInt.fin 10).leb (moveScore false b m0) = true := by
      rw [← hsc_w]
      exact hmax w hw
    have hub : (moveScore false b m0).leb (.fin 10) = true := by
      show (minimaxFuel 10 (b.set m0 AI) 0 false).1.leb (.fin 10) = true
      have := minimaxFuel_le_ub 10 (b.set m0 AI) 0 false (by omega)
        (by norm_num)
      simpa using this
    exact EInt.leb_antisymm hub hle
  have hm0w : m0 = w := by
    rcases Nat.lt_trichotomy m0 w with h | h | h
    · exfalso
      have hnw := hleast m0 hmem h
      have hlt := score_lt_ten (available_moves_empty_cell hmem) hH hnw
      have hlt' : (moveScore false b m0).ltb (.fin 10) = true := hlt
      rw [h10, EInt.ltb_irrefl] at hlt'
      exact Bool.false_ne_true hlt'
    · exact h
    · exfalso
      have hlt := hfirst w hw h
      rw [hsc_w, h10, EInt.ltb_irrefl] at hlt
      exact Bool.false_ne_true hlt
  rw [hm0w] at hres
  exact ⟨hres, score_of_winning_move hwin⟩

theorem available_moves_ne_nil_of_contains {b : Board}
    (hc : b.contains EMPTY = true) : available_moves b ≠ [] := by
  obtain ⟨i, hi⟩ := List.mem_iff_getElem?.mp (contains_iff_mem.mp hc)
  have hlen : i < b.length := by
    rcases List.getElem?_eq_some.mp hi with ⟨h, _⟩
    exact h
  intro hnil
  have : i ∈ available_moves b := mem_available_moves.mpr ⟨hlen, hi⟩
  rw [hnil] at this
  exact List.not_mem_nil i this

/-! ### Concrete boards used by the claims -/

/-- A legal position (X at 0,1,6,8 and O at 3,4,7, X to move) where the AI
wins immediately by playing index 2. -/
def bC3 : Board := ['X', 'X', ' ', 'O', 'O', ' ', 'X', 'O', 'X']

/-- A legal position (X at 0,4,6 and O at 1,7,8, X to move) on which
alpha-beta actually prunes. -/
def bC8 : Board := ['X', 'O', ' ', ' ', 'X', ' ', 'X', 'O', ' ']

/-- A full board with no winner (a drawn final position). -/
def bFull : Board := ['X', 'O', 'X', 'X', 'O', 'O', 'O', 'X', 'X']

/-- A board on which the human has already completed a row but empty cells
remain. -/
def bHwin : Board := ['O', 'O', 'O', 'X', 'X', ' ', ' ', ' ', ' ']

/-- A board on which the AI has already completed a row. -/
def bAwin : Board := ['X', 'X', 'X', 'O', 'O', ' ', ' ', ' ', ' ']

/-! ### The claims -/

/-- C1: for every board, depth and side-to-move flag, `minimax(board, d, m)`
and `alphabeta(board, d, -inf, +inf, m)` return the same value.  This is
proved for all boards whatsoever (and hence in particular for every board
reachable from the empty board by legal alternating play, including the
empty board itself, on which the fuel-10 wrappers are exact by
`minimax_eq_minimaxFuel` and `alphabeta_eq_alphabetaFuel`): pruning changes
the node count, never the returned value. -/
theorem C1_minimax_alphabeta_equal (b : Board) (d : Int) (mx : Bool) :
    (alphabeta b d .negInf .posInf mx).1 = (minimax b d mx).1 :=
  alphabetaFuel_eq_minimaxFuel 10 b d mx

/-- C2: after any call to `minimax`, `alphabeta` or `get_best_move`, the
board is exactly its pre-call state (the embedding returns the final board
state explicitly; the statement covers every control-flow path, including
alpha-beta's early pruning break, since it holds for all inputs). -/
theorem C2_board_restored :
    (∀ (b : Board) (d : Int) (mx : Bool), (minimax b d mx).2.1 = b) ∧
    (∀ (b : Board) (d : Int) (al be : EInt) (mx : Bool),
       (alphabeta b d al be mx).2.1 = b) ∧
    (∀ (b : Board) (flag : Bool), (get_best_move b flag).2 = b) :=
  ⟨fun b d mx => minimaxFuel_board 10 b d mx,
   fun b d al be mx => alphabetaFuel_board 10 b d al be mx,
   get_best_move_board⟩

/-- C3 (counterexample): on the board `bC3` the AI's winning move is index 2
and `get_best_move` does return it, but the minimax value computed for that
move is `10` (the board after the winning move is terminal at recursion
depth 0, so the leaf value is `10 - 0`), not `9` as the claim states. -/
theorem C3_counterexample :
    (get_best_move bC3 false).1 = some 2 ∧
      is_winner (bC3.set 2 AI) AI = true ∧
      is_winner bC3 HUMAN = false ∧
      (minimax (bC3.set 2 AI) 0 false).1 = .fin 10 ∧
      (minimax (bC3.set 2 AI) 0 false).1 ≠ .fin 9 := by
  refine ⟨by decide, by decide, by decide, by decide, by decide⟩

/-- C3 (amended): for every board on which the AI has an immediately
winning move (and the human has not already won), `get_best_move` returns
the least such winning index, and the minimax value computed for that move
is `10 - depth` with depth = 0, i.e. `10` (not 9: the winning move makes
the board terminal before any further recursion). -/
theorem C3_winning_move_amended (b : Board) (w : Nat)
    (hH : is_winner b HUMAN = false) (hw : w ∈ available_moves b)
    (hwin : is_winner (b.set w AI) AI = true)
    (hleast : ∀ m ∈ available_moves b, m < w →
      is_winner (b.set m AI) AI = false) :
    (get_best_move b false).1 = some w ∧
      (minimax (b.set w AI) 0 false).1 = .fin 10 :=
  get_best_move_of_winning_move hH hw hwin hleast

/-- Witness for C3 (amended), at the concrete board `bC3` with winning
move 2. -/
theorem C3_winning_move_amended_witness :
    (is_winner bC3 HUMAN = false ∧ 2 ∈ available_moves bC3 ∧
      is_winner (bC3.set 2 AI) AI = true ∧
      (∀ m ∈ available_moves bC3, m < 2 →
        is_winner (bC3.set m AI) AI = false)) ∧
    (get_best_move bC3 false).1 = some 2 ∧
      (minimax (bC3.set 2 AI) 0 false).1 = .fin 10 :=
  ⟨⟨by decide, by decide, by decide, by decide⟩,
   C3_winning_move_amended bC3 2 (by decide) (by decide) (by decide)
     (by decide)⟩

/-- C4: both procedures perform the terminal check before generating any
moves: an AI win returns `10 - d` at once, a human win (with no AI win,
mirroring the sequential checks) returns `d - 10`, and a draw returns `0`,
for every board, depth, window and side-to-move flag. -/
theorem C4_terminal_values (b : Board) (d : Int) (al be : EInt) (mx : Bool) :
    (is_winner b AI = true →
       (minimax b d mx).1 = .fin (10 - d) ∧
       (alphabeta b d al be mx).1 = .fin (10 - d)) ∧
    (is_winner b AI = false → is_winner b HUMAN = true →
       (minimax b d mx).1 = .fin (d - 10) ∧
       (alphabeta b d al be mx).1 = .fin (d - 10)) ∧
    (is_draw b = true →
       (minimax b d mx).1 = .fin 0 ∧ (alphabeta b d al be mx).1 = .fin 0) := by
  refine ⟨fun hA => ⟨?_, ?_⟩, fun hA hH => ⟨?_, ?_⟩, fun hdr => ⟨?_, ?_⟩⟩
  · show (minimaxFuel 10 b d mx).1 = _
    rw [show (10 : Nat) = 9 + 1 from rfl]
    simp [minimaxFuel, hA]
  · show (alphabetaFuel 10 b d al be mx).1 = _
    rw [show (10 : Nat) = 9 + 1 from rfl]
    simp [alphabetaFuel, hA]
  · show (minimaxFuel 10 b d mx).1 = _
    rw [show (10 : Nat) = 9 + 1 from rfl]
    simp [minimaxFuel, hA, hH]
  · show (alphabetaFuel 10 b d al be mx).1 = _
    rw [show (10 : Nat) = 9 + 1 from rfl]
    simp [alphabetaFuel, hA, hH]
  · have hdr' := hdr
    rw [is_draw, Bool.and_eq_true, Bool.and_eq_true] at hdr'
    have hA : is_winner b AI = false := by
      have := hdr'.2
      rcases h : is_winner b AI with _ | _
      · rfl
      · rw [h] at this; exact absurd this (by simp)
    have hH : is_winner b HUMAN = false := by
      have := hdr'.1.2
      rcases h : is_winner b HUMAN with _ | _
      · rfl
      · rw [h] at this; exact absurd this (by simp)
    show (minimaxFuel 10 b d mx).1 = _
    rw [show (10 : Nat) = 9 + 1 from rfl]
    simp [minimaxFuel, hA, hH, hdr]
  · have hdr' := hdr
    rw [is_draw, Bool.and_eq_true, Bool.and_eq_true] at hdr'
    have hA : is_winner b AI = false := by
      have := hdr'.2
      rcases h : is_winner b AI with _ | _
      · rfl
      · rw [h] at this; exact absurd this (by simp)
    have hH : is_winner b HUMAN = false := by
      have := hdr'.1.2
      rcases h : is_winner b HUMAN with _ | _
      · rfl
      · rw [h] at this; exact absurd this (by simp)
    show (alphabetaFuel 10 b d al be mx).1 = _
    rw [show (10 : Nat) = 9 + 1 from rfl]
    simp [alphabetaFuel, hA, hH, hdr]

/-- Witness for C4, at a board with a completed AI row and depth 3:
the returned leaf value is `10 - 3 = 7`. -/
theorem C4_terminal_values_witness :
    is_winner bAwin AI = true ∧
      (minimax bAwin 3 true).1 = .fin 7 ∧
      (alphabeta bAwin 3 .negInf .posInf true).1 = .fin 7 :=
  ⟨by decide,
   ((C4_terminal_values bAwin 3 .negInf .posInf true).1 (by decide)).1,
   ((C4_terminal_values bAwin 3 .negInf .posInf true).1 (by decide)).2⟩

/-- C5: on any board with at least one empty cell, `get_best_move` iterates
the available moves in ascending index order (the move list is sorted) and
returns a move whose score is maximal, with every earlier available move
scoring strictly less: the first move to reach the maximum wins ties. -/
theorem C5_first_best_move (b : Board) (flag : Bool)
    (hc : b.contains EMPTY = true) :
    (available_moves b).Pairwise (· < ·) ∧
    ∃ m0, (get_best_move b flag).1 = some m0 ∧ m0 ∈ available_moves b ∧
      (∀ m ∈ available_moves b,
        (moveScore flag b m).leb (moveScore flag b m0) = true) ∧
      (∀ m ∈ available_moves b, m < m0 →
        (moveScore flag b m).ltb (moveScore flag b m0) = true) :=
  ⟨available_moves_pairwise b,
   get_best_move_spec b flag (available_moves_ne_nil_of_contains hc)⟩

/-- Witness for C5, at the concrete board `bC3`. -/
theorem C5_first_best_move_witness :
    bC3.contains EMPTY = true ∧
    ((available_moves bC3).Pairwise (· < ·) ∧
     ∃ m0, (get_best_move bC3 false).1 = some m0 ∧
       m0 ∈ available_moves bC3 ∧
       (∀ m ∈ available_moves bC3,
         (moveScore false bC3 m).leb (moveScore false bC3 m0) = true) ∧
       (∀ m ∈ available_moves bC3, m < m0 →
         (moveScore false bC3 m).ltb (moveScore false bC3 m0) = true)) :=
  ⟨by decide, C5_first_best_move bC3 false (by decide)⟩

/-- C6: on a board with no empty cell, `get_best_move` returns the `none`
sentinel rather than failing, for both values of the pruning flag. -/
theorem C6_full_board_none (b : Board) (flag : Bool)
    (h : b.contains EMPTY = false) : (get_best_move b flag).1 = none := by
  show (gbmLoop flag (available_moves b) b .negInf none).1 = none
  rw [available_moves_nil_of_full h]
  rfl

/-- Witness for C6, at a concrete full board, for both flags. -/
theorem C6_full_board_none_witness :
    bFull.contains EMPTY = false ∧
      (get_best_move bFull false).1 = none ∧
      (get_best_move bFull true).1 = none :=
  ⟨by decide, C6_full_board_none bFull false (by decide),
   C6_full_board_none bFull true (by decide)⟩

/-- C7: `make_move` on an in-range position of a 9-cell board sets the cell
and returns `true` when the cell is empty, and returns `false` leaving
every cell unchanged when the cell is occupied. -/
theorem C7_make_move_spec (b : Board) (pos : Nat) (player : Char)
    (hlen : b.length = 9) (hpos : pos < 9) :
    (b[pos]? = some EMPTY →
       (make_move b pos player).1 = true ∧
       ((make_move b pos player).2)[pos]? = some player ∧
       ∀ i : Nat, i ≠ pos → ((make_move b pos player).2)[i]? = b[i]?) ∧
    (b[pos]? ≠ some EMPTY → make_move b pos player = (false, b)) := by
  constructor
  · intro hp
    rw [make_move_empty hp]
    refine ⟨rfl, ?_, ?_⟩
    · exact List.getElem?_set_self (by omega)
    · intro i hi
      exact List.getElem?_set_ne (Ne.symm hi)
  · intro hp
    rw [make_move, if_neg]
    simp [hp]

/-- Witness for C7, at the concrete board `bC3`: position 2 is empty (the
move succeeds and only cell 2 changes) while position 0 is occupied (the
move fails and the board is unchanged). -/
theorem C7_make_move_spec_witness :
    (bC3.length = 9 ∧ (2 : Nat) < 9 ∧ bC3[2]? = some EMPTY ∧
      bC3[0]? ≠ some EMPTY) ∧
    ((make_move bC3 2 AI).1 = true ∧
      ((make_move bC3 2 AI).2)[2]? = some AI ∧
      ∀ i : Nat, i ≠ 2 → ((make_move bC3 2 AI).2)[i]? = bC3[i]?) ∧
    make_move bC3 0 AI = (false, bC3) :=
  ⟨⟨by decide, by decide, by decide, by decide⟩,
   (C7_make_move_spec bC3 2 AI (by decide) (by decide)).1 (by decide),
   (C7_make_move_spec bC3 0 AI (by decide) (by decide)).2 (by decide)⟩

/-- C8: with the full top-level window, alpha-beta performs at most as many
recursive evaluation calls as minimax on every board, depth and flag
(proved for every fuel, hence for the source's recursion: on 9-cell boards
the fuel-10 wrappers are the converged computation by
`minimax_eq_minimaxFuel` and `alphabeta_eq_alphabetaFuel`), and strictly
fewer on the non-trivial position `bC8` (four available moves, AI to
move), where pruning actually fires. -/
theorem C8_pruning_fewer_calls :
    (∀ (b : Board) (d : Int) (mx : Bool),
       (alphabeta b d .negInf .posInf mx).2.2 ≤ (minimax b d mx).2.2) ∧
    (alphabeta bC8 0 .negInf .posInf true).2.2 < (minimax bC8 0 true).2.2 :=
  ⟨fun b d mx => alphabetaFuel_cnt_le 10 b d .negInf .posInf mx, by decide⟩

/-- C9: on any board with at least one empty cell, `get_best_move` returns
an index whose cell is empty on the input board (never the `none`
sentinel), even when the board is already terminal: the first evaluated
move always replaces the initial `-inf` score because the evaluation
always returns a finite integer. -/
theorem C9_returns_empty_cell (b : Board) (flag : Bool)
    (hc : b.contains EMPTY = true) :
    ∃ m0, (get_best_move b flag).1 = some m0 ∧ b[m0]? = some EMPTY := by
  obtain ⟨m0, hres, hmem, _, _⟩ :=
    get_best_move_spec b flag (available_moves_ne_nil_of_contains hc)
  exact ⟨m0, hres, available_moves_empty_cell hmem⟩

/-- Witness for C9, at a board the human has already won (a terminal board
with empty cells left): a move is still returned. -/
theorem C9_returns_empty_cell_witness :
    (bHwin.contains EMPTY = true ∧ is_winner bHwin HUMAN = true) ∧
    ∃ m0, (get_best_move bHwin true).1 = some m0 ∧
      bHwin[m0]? = some EMPTY :=
  ⟨⟨by decide, by decide⟩, C9_returns_empty_cell bHwin true (by decide)⟩

/-- C10: on a 9-cell board every index the search can use is in bounds:
moves produced by `available_moves` are below 9 and address a present
cell, every index in the fixed winning-line table is below 9 and addresses
a present cell, and the board operations used during search (`make_move`
and the undo `set`) preserve the 9-cell length, so the out-of-bounds
branch of the embedded indexing is unreachable throughout the search. -/
theorem C10_indices_in_bounds (b : Board) (hlen : b.length = 9) :
    (∀ m ∈ available_moves b, m < 9 ∧ (b[m]?).isSome = true) ∧
    (∀ combo ∈ wins, ∀ i ∈ combo, i < 9 ∧ (b[i]?).isSome = true) ∧
    (∀ (m : Nat) (p : Char), ((make_move b m p).2).length = 9) ∧
    (∀ (m : Nat) (p : Char), (b.set m p).length = 9) := by
  refine ⟨?_, ?_, ?_, ?_⟩
  · intro m hm
    obtain ⟨hlt, hsome⟩ := mem_available_moves.mp hm
    exact ⟨hlen ▸ hlt, by rw [hsome]; rfl⟩
  · intro combo hcombo i hi
    have hi9 : i < 9 := by
      rw [wins] at hcombo
      fin_cases hcombo <;> fin_cases hi <;> omega
    refine ⟨hi9, ?_⟩
    rw [List.getElem?_eq_getElem (by omega)]
    rfl
  · intro m p
    rw [make_move]
    split
    · simp [hlen]
    · exact hlen
  · intro m p
    simp [hlen]

/-- Witness for C10, at the concrete 9-cell board `bC3`. -/
theorem C10_indices_in_bounds_witness :
    bC3.length = 9 ∧
    ((∀ m ∈ available_moves bC3, m < 9 ∧ (bC3[m]?).isSome = true) ∧
     (∀ combo ∈ wins, ∀ i ∈ combo, i < 9 ∧ (bC3[i]?).isSome = true) ∧
     (∀ (m : Nat) (p : Char), ((make_move bC3 m p).2).length = 9) ∧
     (∀ (m : Nat) (p : Char), (bC3.set m p).length = 9)) :=
  ⟨by decide, C10_indices_in_bounds bC3 (by decide)⟩
